import Mathlib

/-!
# zippy-encryptor: formal model of the file-encryption engine

The repository ships a Rust/NAPI file-encryption engine together with its
JavaScript callers (`chunk_test.js`, `example/index.js`).  The Rust core
itself is not part of the checked-in sources here, so the engine below is
modelled from the specification (`spec.md`): the algorithm adapters
(AES-256-CBC with PKCS#7 padding, ChaCha20-Poly1305 AEAD), the frame codec,
the 24-byte container header, the streaming encryptor/decryptor, the
whole-file path, the file utilities, and the JavaScript-facing result
records observed in the example callers.

Bytes are modelled as `Fin 256`; byte strings as `List (Fin 256)`.
The cryptographic primitives themselves (the AES block permutation, the
ChaCha20 keystream, the Poly1305 MAC) are unspecified by the spec beyond
their interface properties (length, layout, invertibility under the same
key and IV/nonce, tamper detection); they are modelled here by concrete
executable keyed functions that realize exactly those interface properties.
All recursions are structural (fuel-based where needed) so that every
definition evaluates by kernel reduction on concrete inputs.
-/

namespace Zippy

/-- A byte. -/
abbrev Byte := Fin 256

/-- A byte string (file contents, keys, frames, ...). -/
abbrev Bytes := List Byte

instance {ε α : Type} [DecidableEq ε] [DecidableEq α] : DecidableEq (Except ε α) := fun
  | .ok a, .ok b => by
      cases h : decide (a = b) with
      | true => exact .isTrue (by simp_all)
      | false => exact .isFalse (by simp_all)
  | .ok _, .error _ => .isFalse (by simp)
  | .error _, .ok _ => .isFalse (by simp)
  | .error a, .error b => by
      cases h : decide (a = b) with
      | true => exact .isTrue (by simp_all)
      | false => exact .isFalse (by simp_all)

theorem xor_byte_lt (a b : Nat) (ha : a < 256) (hb : b < 256) : a ^^^ b < 256 := by
  have h : a ^^^ b < 2 ^ 8 := Nat.xor_lt_two_pow (by omega) (by omega)
  omega

/-- Bitwise xor of two bytes. -/
def bxor (a b : Byte) : Byte :=
  ⟨a.val ^^^ b.val, xor_byte_lt a.val b.val a.isLt b.isLt⟩

theorem bxor_cancel (a b : Byte) : bxor (bxor a b) b = a := by
  apply Fin.ext
  show (a.val ^^^ b.val) ^^^ b.val = a.val
  rw [Nat.xor_assoc, Nat.xor_self, Nat.xor_zero]

theorem bxor_ne_of_ne_zero (a b : Byte) (hb : b ≠ 0) : bxor a b ≠ a := by
  intro h
  apply hb
  have hv : (a.val ^^^ b.val) = a.val := congrArg Fin.val h
  apply Fin.ext
  show b.val = (0 : Nat)
  have hb2 : b.val = a.val ^^^ (a.val ^^^ b.val) := by
    rw [← Nat.xor_assoc, Nat.xor_self, Nat.zero_xor]
  rw [hv, Nat.xor_self] at hb2
  exact hb2

/-- Flip bit `k % 8` of a byte. -/
def flipBit (b : Byte) (k : Nat) : Byte :=
  bxor b ⟨2 ^ (k % 8), by
    have hk : k % 8 < 8 := Nat.mod_lt _ (by omega)
    calc 2 ^ (k % 8) ≤ 2 ^ 7 := Nat.pow_le_pow_right (by omega) (by omega)
    _ < 256 := by omega⟩

theorem flipBit_ne (b : Byte) (k : Nat) : flipBit b k ≠ b := by
  apply bxor_ne_of_ne_zero
  intro h
  have hv : (2 : Nat) ^ (k % 8) = 0 := congrArg Fin.val h
  have hp : (0 : Nat) < 2 ^ (k % 8) := Nat.pos_pow_of_pos _ (by omega)
  omega

/-- Sum of the byte values of a byte string, as a natural number. -/
def byteSum : Bytes → Nat
  | [] => 0
  | b :: bs => b.val + byteSum bs

theorem byteSum_set {l : Bytes} {i : Nat} (x : Byte) (hi : i < l.length) :
    byteSum (l.set i x) + (l.get ⟨i, hi⟩).val = byteSum l + x.val := by
  induction l generalizing i with
  | nil => simp at hi
  | cons b bs ih =>
    cases i with
    | zero => simp [byteSum, List.set]; omega
    | succ j =>
      simp only [List.set, byteSum, List.get]
      have := ih (i := j) (by simpa using Nat.lt_of_succ_lt_succ hi)
      omega

/-- Little-endian encoding of `n` into exactly `w` bytes. -/
def toLE : Nat → Nat → Bytes
  | 0, _ => []
  | w + 1, n => ⟨n % 256, Nat.mod_lt _ (by omega)⟩ :: toLE w (n / 256)

/-- Little-endian decoding of a byte string. -/
def fromLE : Bytes → Nat
  | [] => 0
  | b :: bs => b.val + 256 * fromLE bs

theorem length_toLE (w n : Nat) : (toLE w n).length = w := by
  induction w generalizing n with
  | zero => rfl
  | succ w ih => simp [toLE, ih]

theorem fromLE_toLE (w n : Nat) : fromLE (toLE w n) = n % 256 ^ w := by
  induction w generalizing n with
  | zero => simp [toLE, fromLE, Nat.mod_one]
  | succ w ih =>
    simp only [toLE, fromLE, ih]
    have h1 : n = 256 * (n / 256) + n % 256 := (Nat.div_add_mod n 256).symm
    have h2 : n / 256 = 256 ^ w * (n / 256 / 256 ^ w) + (n / 256) % 256 ^ w :=
      (Nat.div_add_mod _ _).symm
    have hlt : n % 256 + 256 * ((n / 256) % 256 ^ w) < 256 ^ (w + 1) := by
      have ha : n % 256 < 256 := Nat.mod_lt _ (by omega)
      have hb : (n / 256) % 256 ^ w < 256 ^ w :=
        Nat.mod_lt _ (Nat.pos_pow_of_pos _ (by omega))
      calc n % 256 + 256 * ((n / 256) % 256 ^ w)
          ≤ 255 + 256 * (256 ^ w - 1) := by
            have := Nat.le_sub_one_of_lt hb
            omega
        _ < 256 ^ (w + 1) := by
            have : (0:Nat) < 256 ^ w := Nat.pos_pow_of_pos _ (by omega)
            rw [pow_succ]
            omega
    have hdecomp : n = (n % 256 + 256 * ((n / 256) % 256 ^ w)) +
        256 ^ (w + 1) * (n / 256 / 256 ^ w) := by
      rw [pow_succ]
      nlinarith [h1, h2]
    calc n % 256 + 256 * ((n / 256) % 256 ^ w)
        = (n % 256 + 256 * ((n / 256) % 256 ^ w)) % 256 ^ (w + 1) :=
          (Nat.mod_eq_of_lt hlt).symm
      _ = n % 256 ^ (w + 1) := by
          conv_rhs => rw [hdecomp]
          rw [Nat.add_mul_mod_self_left]

theorem fromLE_toLE_of_lt {w n : Nat} (h : n < 256 ^ w) : fromLE (toLE w n) = n := by
  rw [fromLE_toLE, Nat.mod_eq_of_lt h]

theorem toLE_injOn {w a b : Nat} (ha : a < 256 ^ w) (hb : b < 256 ^ w)
    (h : toLE w a = toLE w b) : a = b := by
  have := congrArg fromLE h
  rwa [fromLE_toLE_of_lt ha, fromLE_toLE_of_lt hb] at this

/-- Pad or truncate a byte string to exactly `n` bytes (used to model
"sample exactly `n` random bytes" from the randomness the caller supplies). -/
def normTo (n : Nat) (l : Bytes) : Bytes :=
  l.take n ++ List.replicate (n - l.length) 0

theorem length_normTo (n : Nat) (l : Bytes) : (normTo n l).length = n := by
  simp only [normTo, List.length_append, List.length_take, List.length_replicate]
  omega

theorem normTo_of_length {n : Nat} {l : Bytes} (h : l.length = n) : normTo n l = l := by
  simp [normTo, h, List.take_of_length_le (le_of_eq h)]

/-! ## List helper lemmas: `set` against `append`, `take`, `drop` -/

theorem set_append_right {α : Type} (a b : List α) (i : Nat) (x : α) (h : a.length ≤ i) :
    (a ++ b).set i x = a ++ b.set (i - a.length) x := by
  induction a generalizing i with
  | nil => simp
  | cons y ys ih =>
    cases i with
    | zero => simp at h
    | succ j =>
      simp only [List.cons_append, List.set, List.length_cons, List.append_eq]
      rw [ih j (by simpa using Nat.le_of_succ_le_succ h), Nat.succ_sub_succ]

theorem take_set_of_le {α : Type} (l : List α) (i m : Nat) (x : α) (h : m ≤ i) :
    (l.set i x).take m = l.take m := by
  induction l generalizing i m with
  | nil => simp
  | cons y ys ih =>
    cases i with
    | zero =>
      have : m = 0 := Nat.le_zero.mp h
      simp [this]
    | succ j =>
      cases m with
      | zero => simp
      | succ k =>
        simp only [List.set, List.take]
        rw [ih j k (Nat.le_of_succ_le_succ h)]

theorem drop_set_of_le {α : Type} (l : List α) (i m : Nat) (x : α) (h : m ≤ i) :
    (l.set i x).drop m = (l.drop m).set (i - m) x := by
  induction l generalizing i m with
  | nil => simp
  | cons y ys ih =>
    cases m with
    | zero => simp
    | succ k =>
      cases i with
      | zero => simp at h
      | succ j =>
        simp only [List.set, List.drop]
        rw [ih j k (Nat.le_of_succ_le_succ h), Nat.succ_sub_succ]

theorem take_set_of_lt {α : Type} (l : List α) (i m : Nat) (x : α) (h : i < m) :
    (l.set i x).take m = (l.take m).set i x := by
  induction l generalizing i m with
  | nil => simp
  | cons y ys ih =>
    cases m with
    | zero => omega
    | succ k =>
      cases i with
      | zero => simp [List.set]
      | succ j =>
        simp only [List.set, List.take]
        rw [ih j k (Nat.lt_of_succ_lt_succ h)]

theorem drop_set_of_lt {α : Type} (l : List α) (i m : Nat) (x : α) (h : i < m) :
    (l.set i x).drop m = l.drop m := by
  induction l generalizing i m with
  | nil => simp
  | cons y ys ih =>
    cases m with
    | zero => omega
    | succ k =>
      cases i with
      | zero => simp [List.set]
      | succ j =>
        simp only [List.set, List.drop]
        exact ih j k (Nat.lt_of_succ_lt_succ h)

theorem set_ne_of_get_ne {α : Type} (l : List α) (i : Nat) (x : α) (hi : i < l.length)
    (hx : x ≠ l.get ⟨i, hi⟩) : l.set i x ≠ l := by
  induction l generalizing i with
  | nil => simp at hi
  | cons y ys ih =>
    cases i with
    | zero =>
      intro h
      have hxy : x = y := by
        have := congrArg (fun t => t.headD x) h
        simpa using this
      exact hx (by simpa using hxy)
    | succ j =>
      intro h
      have hj : j < ys.length := by simpa using Nat.lt_of_succ_lt_succ hi
      refine ih j hj (by simpa using hx) ?_
      simpa [List.set] using congrArg List.tail h

/-! ## Chunking

`chunksOfF` splits a list into consecutive runs of at most `c` elements.
The fuel argument makes the recursion structural (so that concrete inputs
evaluate by kernel reduction); callers pass `l.length`, which dominates the
number of produced chunks whenever `0 < c`. -/

def chunksOfF {α : Type} (c : Nat) : Nat → List α → List (List α)
  | 0, _ => []
  | _ + 1, [] => []
  | f + 1, x :: xs => if c = 0 then [] else
      (x :: xs).take c :: chunksOfF c f ((x :: xs).drop c)

/-- Split a list into consecutive chunks of at most `c` elements
(the last chunk may be shorter). -/
def chunksOf {α : Type} (c : Nat) (l : List α) : List (List α) :=
  chunksOfF c l.length l

/-- The lengths of the chunks of an `n`-element list, as a function of `n`
alone (same fuel discipline as `chunksOfF`). -/
def chunkLensF (c : Nat) : Nat → Nat → List Nat
  | 0, _ => []
  | _ + 1, 0 => []
  | f + 1, n => if c = 0 then [] else min c n :: chunkLensF c f (n - c)

def chunkLens (c n : Nat) : List Nat :=
  chunkLensF c n n

theorem chunksOfF_flatten {α : Type} {c : Nat} (hc : 0 < c) :
    ∀ (f : Nat) (l : List α), l.length ≤ f → (chunksOfF c f l).flatten = l := by
  intro f
  induction f with
  | zero =>
    intro l hl
    have : l = [] := List.eq_nil_of_length_eq_zero (Nat.le_zero.mp hl)
    simp [this, chunksOfF]
  | succ f ih =>
    intro l hl
    cases l with
    | nil => simp [chunksOfF]
    | cons x xs =>
      have hl2 : xs.length + 1 ≤ f + 1 := by simpa using hl
      simp only [chunksOfF, if_neg (Nat.pos_iff_ne_zero.mp hc), List.flatten_cons]
      rw [ih ((x :: xs).drop c) (by simp only [List.length_drop, List.length_cons]; omega)]
      exact List.take_append_drop c (x :: xs)

theorem chunksOfF_lens {α : Type} {c : Nat} (hc : 0 < c) :
    ∀ (f : Nat) (l : List α), l.length ≤ f →
      (chunksOfF c f l).map List.length = chunkLensF c f l.length := by
  intro f
  induction f with
  | zero =>
    intro l hl
    simp [chunksOfF, chunkLensF]
  | succ f ih =>
    intro l hl
    cases l with
    | nil => simp [chunksOfF, chunkLensF]
    | cons x xs =>
      have hcne := Nat.pos_iff_ne_zero.mp hc
      have hl2 : xs.length + 1 ≤ f + 1 := by simpa using hl
      simp only [chunksOfF, if_neg hcne, List.map_cons, List.length_cons]
      have hstep : chunkLensF c (f + 1) (xs.length + 1) =
          min c (xs.length + 1) :: chunkLensF c f (xs.length + 1 - c) := by
        simp [chunkLensF, if_neg hcne]
      rw [hstep]
      congr 1
      · simp [List.length_take]
      · rw [ih ((x :: xs).drop c) (by simp only [List.length_drop, List.length_cons]; omega)]
        congr 1
        simp

theorem chunkLensF_length {c : Nat} (hc : 0 < c) :
    ∀ (f n : Nat), n ≤ f → (chunkLensF c f n).length = (n + c - 1) / c := by
  intro f
  induction f with
  | zero =>
    intro n hn
    have : n = 0 := Nat.le_zero.mp hn
    subst this
    simp only [chunkLensF, List.length_nil, Nat.zero_add]
    exact (Nat.div_eq_of_lt (by omega)).symm
  | succ f ih =>
    intro n hn
    cases n with
    | zero =>
      simp only [chunkLensF, List.length_nil, Nat.zero_add]
      exact (Nat.div_eq_of_lt (by omega)).symm
    | succ m =>
      have hcne := Nat.pos_iff_ne_zero.mp hc
      simp only [chunkLensF, if_neg hcne, List.length_cons]
      rw [ih (m + 1 - c) (by omega)]
      rcases le_or_lt (m + 1) c with hle | hlt
      · have h1 : m + 1 - c = 0 := by omega
        rw [h1]
        rw [Nat.div_eq_of_lt (by omega)]
        have : (m + 1 + c - 1) / c = 1 :=
          Nat.div_eq_of_lt_le (by omega) (by omega)
        omega
      · have e1 : m + 1 - c + c - 1 = m := by omega
        have e2 : m + 1 + c - 1 = m + c := by omega
        rw [e1, e2, Nat.add_div_right _ hc]

theorem chunkLensF_mem_le {c : Nat} :
    ∀ (f n x : Nat), x ∈ chunkLensF c f n → x ≤ c := by
  intro f
  induction f with
  | zero => intro n x hx; simp [chunkLensF] at hx
  | succ f ih =>
    intro n x hx
    cases n with
    | zero => simp [chunkLensF] at hx
    | succ m =>
      by_cases hc : c = 0
      · simp [chunkLensF, hc] at hx
      · simp only [chunkLensF, if_neg hc, List.mem_cons] at hx
        rcases hx with h | h
        · omega
        · exact ih _ _ h

theorem chunkLensF_mem_eq_of_dvd {c : Nat} (hc : 0 < c) :
    ∀ (f n x : Nat), c ∣ n → n ≤ f → x ∈ chunkLensF c f n → x = c := by
  intro f
  induction f with
  | zero => intro n x _ hn hx; interval_cases n <;> simp [chunkLensF] at hx
  | succ f ih =>
    intro n x hdvd hn hx
    cases n with
    | zero => simp [chunkLensF] at hx
    | succ m =>
      have hcne := Nat.pos_iff_ne_zero.mp hc
      simp only [chunkLensF, if_neg hcne, List.mem_cons] at hx
      have hcle : c ≤ m + 1 := Nat.le_of_dvd (by omega) hdvd
      rcases hx with h | h
      · omega
      · exact ih (m + 1 - c) x ((Nat.dvd_sub' hdvd (dvd_refl c))) (by omega) h

theorem chunksOf_flatten {α : Type} {c : Nat} (hc : 0 < c) (l : List α) :
    (chunksOf c l).flatten = l :=
  chunksOfF_flatten hc l.length l (Nat.le_refl _)

theorem chunksOf_lens {α : Type} {c : Nat} (hc : 0 < c) (l : List α) :
    (chunksOf c l).map List.length = chunkLens c l.length := by
  unfold chunksOf chunkLens
  exact chunksOfF_lens hc l.length l (Nat.le_refl _)

/-- Re-chunking the concatenation of equally sized blocks recovers the blocks. -/
theorem chunksOf_flatten_blocks {α : Type} {c : Nat} (hc : 0 < c) :
    ∀ (bs : List (List α)) (f : Nat), bs.flatten.length ≤ f →
      (∀ b ∈ bs, b.length = c) → chunksOfF c f bs.flatten = bs := by
  intro bs
  induction bs with
  | nil =>
    intro f _ _
    cases f with
    | zero => simp [chunksOfF]
    | succ f => simp [chunksOfF]
  | cons b bs ih =>
    intro f hf hall
    have hb : b.length = c := hall b (by simp)
    have hbne : b ≠ [] := by
      intro h
      rw [h] at hb
      simp at hb
      omega
    have hflat : (b :: bs).flatten = b ++ bs.flatten := by simp
    cases f with
    | zero =>
      exfalso
      rw [hflat] at hf
      simp [List.length_append, hb] at hf
      omega
    | succ f =>
      rw [hflat]
      cases hbb : b ++ bs.flatten with
      | nil =>
        exact absurd (List.append_eq_nil.mp hbb).1 hbne
      | cons y ys =>
        have ht : (y :: ys).take c = b := by
          rw [← hbb]
          exact List.take_left' hb
        have hd : (y :: ys).drop c = bs.flatten := by
          rw [← hbb]
          exact List.drop_left' hb
        have hstep : chunksOfF c (f + 1) (y :: ys)
            = (y :: ys).take c :: chunksOfF c f ((y :: ys).drop c) := by
          simp [chunksOfF, if_neg (Nat.pos_iff_ne_zero.mp hc)]
        rw [hstep, ht, hd]
        congr 1
        apply ih f _ (fun x hx => hall x (by simp [hx]))
        rw [hflat] at hf
        simp only [List.length_append, hb] at hf
        omega

/-! ## Error taxonomy (spec §7) -/

/-- Modelled from the spec: the abstract error kinds of §7. -/
inductive Err : Type
  | InvalidKeyLength
  | UnknownAlgorithm
  | IoError
  | NotAContainer
  | UnsupportedVersion
  | UnsupportedFlags
  | AlgorithmMismatch
  | TruncatedFrame
  | FrameTooLarge
  | AuthFailure
  | PaddingError
  | CryptoError
  deriving DecidableEq, Repr

/-- Modelled from the spec: the two supported algorithms, public strings
`"aes"` (AES-256-CBC) and `"chacha20poly1305"` (ChaCha20-Poly1305). -/
inductive Algo : Type
  | aes
  | chacha
  deriving DecidableEq, Repr

/-- Wire code of an algorithm in the container header (spec §3). -/
def wireCode : Algo → Nat
  | .aes => 1
  | .chacha => 2

/-- Inverse of `wireCode`: `none` for an unknown header code. -/
def codeToAlgo : Nat → Option Algo
  | 1 => some Algo.aes
  | 2 => some Algo.chacha
  | _ => none

/-- Length of the random value a `seal` call samples: a 16-byte IV for AES,
a 12-byte nonce for ChaCha (spec §4.A). -/
def randLen : Algo → Nat
  | .aes => 16
  | .chacha => 12

/-- Worst-case sealing overhead in bytes: 16 IV + up to 16 padding for AES,
12 nonce + 16 tag for ChaCha (spec §4.B, §4.D memory-bound note). -/
def overhead : Algo → Nat
  | .aes => 32
  | .chacha => 28

/-! ## PKCS#7 padding (spec §4.A, AES variant) -/

/-- The PKCS#7 pad byte for an `n`-byte plaintext: `16 - n % 16`, always
in `1..16` (a full extra block when the input is block-aligned). -/
def padByte (n : Nat) : Byte :=
  ⟨16 - n % 16, by omega⟩

/-- Modelled from the spec: PKCS#7 padding to the 16-byte AES block size. -/
def pkcs7pad (p : Bytes) : Bytes :=
  p ++ List.replicate (16 - p.length % 16) (padByte p.length)

/-- Modelled from the spec: PKCS#7 unpadding; `PaddingError` if the pad byte
is out of range (`0` or `> 16`) or the tail does not match. -/
def pkcs7unpad (b : Bytes) : Except Err Bytes :=
  let n := b.length
  let last := b.getD (n - 1) 0
  let k := last.val
  if n = 0 then .error .PaddingError
  else if k = 0 then .error .PaddingError
  else if 16 < k then .error .PaddingError
  else if n < k then .error .PaddingError
  else if b.drop (n - k) = List.replicate k last then .ok (b.take (n - k))
  else .error .PaddingError

theorem length_pkcs7pad (p : Bytes) :
    (pkcs7pad p).length = 16 * (p.length / 16 + 1) := by
  simp only [pkcs7pad, List.length_append, List.length_replicate]
  omega

theorem dvd_length_pkcs7pad (p : Bytes) : 16 ∣ (pkcs7pad p).length := by
  rw [length_pkcs7pad]
  exact Dvd.intro _ rfl

theorem pkcs7pad_ne_nil (p : Bytes) : pkcs7pad p ≠ [] := by
  intro h
  have hl := congrArg List.length h
  rw [length_pkcs7pad] at hl
  simp only [List.length_nil] at hl
  omega

theorem getD_append_right {α : Type} (a b : List α) (d : α) (i : Nat) (h : a.length ≤ i) :
    (a ++ b).getD i d = b.getD (i - a.length) d := by
  induction a generalizing i with
  | nil => simp
  | cons y ys ih =>
    cases i with
    | zero => simp at h
    | succ j =>
      simp only [List.cons_append, List.getD, List.length_cons, Nat.succ_sub_succ]
      exact ih j (by simpa using Nat.le_of_succ_le_succ h)

theorem getD_append_left {α : Type} (a b : List α) (d : α) (i : Nat) (h : i < a.length) :
    (a ++ b).getD i d = a.getD i d := by
  induction a generalizing i with
  | nil => simp at h
  | cons y ys ih =>
    cases i with
    | zero => rfl
    | succ j =>
      simp only [List.cons_append, List.getD]
      exact ih j (by simpa using Nat.lt_of_succ_lt_succ h)

theorem getD_eq_get {α : Type} (l : List α) (d : α) (i : Nat) (h : i < l.length) :
    l.getD i d = l.get ⟨i, h⟩ := by
  induction l generalizing i with
  | nil => simp at h
  | cons y ys ih =>
    cases i with
    | zero => rfl
    | succ j => exact ih j (by simpa using Nat.lt_of_succ_lt_succ h)

theorem getD_replicate {α : Type} (n : Nat) (x d : α) (i : Nat) (h : i < n) :
    (List.replicate n x).getD i d = x := by
  induction n generalizing i with
  | zero => omega
  | succ m ih =>
    cases i with
    | zero => rfl
    | succ j => exact ih j (Nat.lt_of_succ_lt_succ h)

theorem pkcs7unpad_pkcs7pad (p : Bytes) : pkcs7unpad (pkcs7pad p) = .ok p := by
  have hm : 0 < 16 - p.length % 16 := by omega
  have hlen : (pkcs7pad p).length = p.length + (16 - p.length % 16) := by
    simp only [pkcs7pad, List.length_append, List.length_replicate]
  have hlast : (pkcs7pad p).getD ((pkcs7pad p).length - 1) 0 = padByte p.length := by
    simp only [pkcs7pad, List.length_append, List.length_replicate]
    rw [getD_append_right _ _ _ _ (by omega)]
    exact getD_replicate _ _ _ _ (by omega)
  have hk : (padByte p.length).val = 16 - p.length % 16 := rfl
  simp only [pkcs7unpad, hlast, hk]
  rw [if_neg (by omega), if_neg (by omega), if_neg (by omega), if_neg (by omega)]
  have hdrop : (pkcs7pad p).drop ((pkcs7pad p).length - (16 - p.length % 16))
      = List.replicate (16 - p.length % 16) (padByte p.length) := by
    have hidx : (pkcs7pad p).length - (16 - p.length % 16) = p.length := by omega
    rw [hidx]
    exact List.drop_left' rfl
  have htake : (pkcs7pad p).take ((pkcs7pad p).length - (16 - p.length % 16)) = p := by
    have hidx : (pkcs7pad p).length - (16 - p.length % 16) = p.length := by omega
    rw [hidx]
    exact List.take_left' rfl
  rw [if_pos hdrop, htake]

/-! ## AES-256-CBC adapter (spec §4.A)

The AES-256 block permutation itself is out of the spec's scope (an external
primitive); the spec only fixes the observable interface: a fresh 16-byte IV,
PKCS#7 padding, CBC chaining over 16-byte blocks, `sealed = IV || ciphertext`,
and invertibility under the same key and IV.  It is modelled here by a
concrete invertible keyed byte permutation inside genuine CBC chaining. -/

/-- A key digest used by the modelled primitives. -/
def keyFin (key : Bytes) : Byte :=
  key.foldl (fun a b => a + b) 37

/-- Modelled AES block transformation: an invertible keyed byte map. -/
def blockEnc (key : Bytes) (b : Bytes) : Bytes :=
  b.map (fun x => x + keyFin key)

/-- Inverse of `blockEnc`. -/
def blockDec (key : Bytes) (b : Bytes) : Bytes :=
  b.map (fun x => x - keyFin key)

theorem blockDec_blockEnc (key : Bytes) (b : Bytes) :
    blockDec key (blockEnc key b) = b := by
  simp only [blockEnc, blockDec, List.map_map]
  have : ((fun x => x - keyFin key) ∘ fun x : Byte => x + keyFin key) = id := by
    funext x
    simp [add_sub_cancel_right]
  rw [this, List.map_id]

theorem length_blockEnc (key : Bytes) (b : Bytes) :
    (blockEnc key b).length = b.length := by
  simp [blockEnc]

/-- Pointwise xor of two equal-length byte strings (CBC chaining). -/
def xorBytes : Bytes → Bytes → Bytes
  | [], _ => []
  | _, [] => []
  | a :: as, b :: bs => bxor a b :: xorBytes as bs

theorem length_xorBytes (a b : Bytes) :
    (xorBytes a b).length = min a.length b.length := by
  induction a generalizing b with
  | nil => simp [xorBytes]
  | cons x xs ih =>
    cases b with
    | nil => simp [xorBytes]
    | cons y ys =>
      simp [xorBytes, ih]
      omega

theorem xorBytes_cancel (a b : Bytes) (h : a.length = b.length) :
    xorBytes (xorBytes a b) b = a := by
  induction a generalizing b with
  | nil =>
    cases b with
    | nil => rfl
    | cons y ys => simp at h
  | cons x xs ih =>
    cases b with
    | nil => simp at h
    | cons y ys =>
      simp only [xorBytes, bxor_cancel]
      rw [ih ys (by simpa using h)]

/-- Modelled AES-256-CBC encryption of a block sequence, chained from `prev`. -/
def cbcEnc (key : Bytes) : Bytes → List Bytes → List Bytes
  | _, [] => []
  | prev, b :: bs =>
    let c := blockEnc key (xorBytes b prev)
    c :: cbcEnc key c bs

/-- Modelled AES-256-CBC decryption of a block sequence, chained from `prev`. -/
def cbcDec (key : Bytes) : Bytes → List Bytes → List Bytes
  | _, [] => []
  | prev, c :: cs => xorBytes (blockDec key c) prev :: cbcDec key c cs

theorem cbcDec_cbcEnc (key : Bytes) (bs : List Bytes) :
    ∀ prev, prev.length = 16 → (∀ b ∈ bs, b.length = 16) →
      cbcDec key prev (cbcEnc key prev bs) = bs := by
  induction bs with
  | nil => intro prev _ _; rfl
  | cons b bs ih =>
    intro prev hprev hall
    have hb : b.length = 16 := hall b (by simp)
    have hxlen : (xorBytes b prev).length = 16 := by
      rw [length_xorBytes, hb, hprev]
      simp
    have hclen : (blockEnc key (xorBytes b prev)).length = 16 := by
      rw [length_blockEnc, hxlen]
    simp only [cbcEnc, cbcDec]
    rw [blockDec_blockEnc, xorBytes_cancel b prev (by omega)]
    rw [ih (blockEnc key (xorBytes b prev)) hclen (fun x hx => hall x (by simp [hx]))]

theorem cbcEnc_blocks_length (key : Bytes) (bs : List Bytes) :
    ∀ prev, prev.length = 16 → (∀ b ∈ bs, b.length = 16) →
      ∀ c ∈ cbcEnc key prev bs, c.length = 16 := by
  induction bs with
  | nil => intro prev _ _ c hc; simp [cbcEnc] at hc
  | cons b bs ih =>
    intro prev hprev hall c hc
    have hb : b.length = 16 := hall b (by simp)
    have hclen : (blockEnc key (xorBytes b prev)).length = 16 := by
      rw [length_blockEnc, length_xorBytes, hb, hprev]
      simp
    simp only [cbcEnc, List.mem_cons] at hc
    rcases hc with h | h
    · rw [h, hclen]
    · exact ih (blockEnc key (xorBytes b prev)) hclen
        (fun x hx => hall x (by simp [hx])) c h

theorem cbcEnc_length (key : Bytes) (bs : List Bytes) :
    ∀ prev, (cbcEnc key prev bs).length = bs.length := by
  induction bs with
  | nil => intro prev; rfl
  | cons b bs ih =>
    intro prev
    simp only [cbcEnc, List.length_cons]
    rw [ih]

/-- Modelled from the spec (§4.A, AES-256-CBC variant): pad with PKCS#7,
encrypt in CBC mode with a fresh 16-byte IV, return `IV || ciphertext`. -/
def aesSeal (key rand pt : Bytes) : Bytes :=
  let iv := normTo 16 rand
  let blocks := chunksOf 16 (pkcs7pad pt)
  iv ++ (cbcEnc key iv blocks).flatten

/-- Modelled from the spec (§4.A): split `IV || ciphertext`, CBC-decrypt,
strip PKCS#7; `CryptoError` when the layout cannot be a CBC sealing. -/
def aesOpen (key sealed : Bytes) : Except Err Bytes :=
  if sealed.length < 16 then .error .CryptoError
  else
    let iv := sealed.take 16
    let body := sealed.drop 16
    if body.length % 16 ≠ 0 then .error .CryptoError
    else pkcs7unpad (cbcDec key iv (chunksOf 16 body)).flatten

theorem aes_pad_blocks_sixteen (pt : Bytes) :
    ∀ b ∈ chunksOf 16 (pkcs7pad pt), b.length = 16 := by
  intro b hb
  have hmem : b.length ∈ (chunksOf 16 (pkcs7pad pt)).map List.length :=
    List.mem_map_of_mem List.length hb
  rw [chunksOf_lens (by omega)] at hmem
  exact chunkLensF_mem_eq_of_dvd (by omega) _ _ _ (dvd_length_pkcs7pad pt)
    (Nat.le_refl _) hmem

theorem length_aesSeal (key rand pt : Bytes) :
    (aesSeal key rand pt).length = 16 + 16 * (pt.length / 16 + 1) := by
  have hiv : (normTo 16 rand).length = 16 := length_normTo _ _
  have hblocks := aes_pad_blocks_sixteen pt
  simp only [aesSeal, List.length_append, hiv, List.length_flatten]
  congr 1
  have hall : ∀ c ∈ cbcEnc key (normTo 16 rand) (chunksOf 16 (pkcs7pad pt)), c.length = 16 :=
    cbcEnc_blocks_length key _ _ hiv hblocks
  have hcount : (cbcEnc key (normTo 16 rand) (chunksOf 16 (pkcs7pad pt))).length
      = (chunksOf 16 (pkcs7pad pt)).length := cbcEnc_length key _ _
  have hsum : ∀ (L : List Bytes), (∀ c ∈ L, c.length = 16) →
      (L.map List.length).sum = 16 * L.length := by
    intro L
    induction L with
    | nil => intro _; simp
    | cons x xs ihL =>
      intro hallL
      simp only [List.map_cons, List.sum_cons, List.length_cons]
      rw [hallL x (by simp), ihL (fun y hy => hallL y (by simp [hy]))]
      ring
  rw [hsum _ hall, hcount]
  have hsum2 := hsum (chunksOf 16 (pkcs7pad pt)) hblocks
  have hflat : ((chunksOf 16 (pkcs7pad pt)).map List.length).sum = (pkcs7pad pt).length := by
    rw [← List.length_flatten, chunksOf_flatten (by omega)]
  rw [hflat] at hsum2
  rw [← hsum2, ← hflat, ← List.length_flatten, chunksOf_flatten (by omega)]
  exact length_pkcs7pad pt

theorem aesOpen_aesSeal (key rand pt : Bytes) :
    aesOpen key (aesSeal key rand pt) = .ok pt := by
  have hiv : (normTo 16 rand).length = 16 := length_normTo _ _
  have hblocks := aes_pad_blocks_sixteen pt
  have hcbcall : ∀ c ∈ cbcEnc key (normTo 16 rand) (chunksOf 16 (pkcs7pad pt)), c.length = 16 :=
    cbcEnc_blocks_length key _ _ hiv hblocks
  have hlen := length_aesSeal key rand pt
  have hbodylen : (cbcEnc key (normTo 16 rand) (chunksOf 16 (pkcs7pad pt))).flatten.length
      = 16 * (pt.length / 16 + 1) := by
    have := hlen
    simp only [aesSeal, List.length_append, hiv] at this
    omega
  simp only [aesOpen]
  rw [if_neg (by omega)]
  have htake : (aesSeal key rand pt).take 16 = normTo 16 rand := by
    simp only [aesSeal]
    exact List.take_left' hiv
  have hdrop : (aesSeal key rand pt).drop 16
      = (cbcEnc key (normTo 16 rand) (chunksOf 16 (pkcs7pad pt))).flatten := by
    simp only [aesSeal]
    exact List.drop_left' hiv
  rw [htake, hdrop]
  rw [if_neg (by rw [hbodylen]; omega)]
  have hrechunk : chunksOf 16
      (cbcEnc key (normTo 16 rand) (chunksOf 16 (pkcs7pad pt))).flatten
      = cbcEnc key (normTo 16 rand) (chunksOf 16 (pkcs7pad pt)) := by
    unfold chunksOf
    exact chunksOf_flatten_blocks (by omega) _ _ (Nat.le_refl _) hcbcall
  rw [hrechunk]
  rw [cbcDec_cbcEnc key _ _ hiv hblocks]
  rw [chunksOf_flatten (by omega)]
  exact pkcs7unpad_pkcs7pad pt

/-! ## ChaCha20-Poly1305 adapter (spec §4.A)

As for AES, the primitives (ChaCha20 keystream, Poly1305 MAC) are external
to the spec; the spec fixes the observable interface: a fresh 12-byte nonce,
a length-preserving stream cipher, a 16-byte tag verified on `open`
(mismatch ⇒ `AuthFailure`, and any single-bit corruption of ciphertext or
tag is detected — spec §8 property 3).  The keystream is modelled as a
keyed positional byte function, the MAC as a keyed checksum over the
ciphertext that separates all single-byte changes, encoded on 16 bytes. -/

/-- Modelled ChaCha20 keystream byte at position `i`. -/
def ksByte (key nonce : Bytes) (i : Nat) : Byte :=
  ⟨(byteSum key * 131 + byteSum nonce * 17 + i * 7 + 3) % 256, Nat.mod_lt _ (by omega)⟩

/-- Xor a byte string against the keystream starting at position `i`
(its own inverse, as for the real stream cipher). -/
def xorKS (key nonce : Bytes) : Nat → Bytes → Bytes
  | _, [] => []
  | i, b :: bs => bxor b (ksByte key nonce i) :: xorKS key nonce (i + 1) bs

theorem length_xorKS (key nonce : Bytes) : ∀ (i : Nat) (l : Bytes),
    (xorKS key nonce i l).length = l.length := by
  intro i l
  induction l generalizing i with
  | nil => rfl
  | cons b bs ih => simp [xorKS, ih]

theorem xorKS_xorKS (key nonce : Bytes) : ∀ (i : Nat) (l : Bytes),
    xorKS key nonce i (xorKS key nonce i l) = l := by
  intro i l
  induction l generalizing i with
  | nil => rfl
  | cons b bs ih =>
    simp only [xorKS, bxor_cancel]
    rw [ih]

/-- Modelled Poly1305 authenticator value: a keyed checksum of the
ciphertext, reduced mod `2^128`.  Any change of a single ciphertext byte
shifts the checksum by less than `2^128`, so it is always detected. -/
def tagNat (key nonce ct : Bytes) : Nat :=
  (byteSum key * 65537 + byteSum nonce * 257 + byteSum ct + 11) % (2 ^ 128)

/-- The 16-byte tag: little-endian encoding of `tagNat`. -/
def tagBytes (key nonce ct : Bytes) : Bytes :=
  toLE 16 (tagNat key nonce ct)

theorem length_tagBytes (key nonce ct : Bytes) : (tagBytes key nonce ct).length = 16 :=
  length_toLE _ _

theorem tagNat_lt (key nonce ct : Bytes) : tagNat key nonce ct < 2 ^ 128 :=
  Nat.mod_lt _ (by positivity)

theorem mod_ne_of_close {a b M : Nat} (hM : 0 < M) (hne : a ≠ b)
    (hclose : a < b + M ∧ b < a + M) : a % M ≠ b % M := by
  intro h
  have hdvd : (M : Int) ∣ (b : Int) - a := (Nat.modEq_iff_dvd (n := M)).mp h
  rcases hdvd with ⟨k, hk⟩
  have hb1 : (b : Int) - a < M := by
    have := hclose.2
    push_cast
    omega
  have hb2 : -(M : Int) < (b : Int) - a := by
    have := hclose.1
    push_cast
    omega
  have hkval : k = 0 := by nlinarith [hk]
  rw [hkval, mul_zero] at hk
  have : (a : Int) = b := by omega
  exact hne (by exact_mod_cast this)

/-- Changing one ciphertext byte changes the modelled tag. -/
theorem tagBytes_ne_of_set (key nonce ct : Bytes) (i : Nat) (x : Byte)
    (hi : i < ct.length) (hx : x ≠ ct.get ⟨i, hi⟩) :
    tagBytes key nonce (ct.set i x) ≠ tagBytes key nonce ct := by
  intro h
  have hsum := byteSum_set x hi
  have hne : byteSum key * 65537 + byteSum nonce * 257 + byteSum (ct.set i x) + 11
      ≠ byteSum key * 65537 + byteSum nonce * 257 + byteSum ct + 11 := by
    intro he
    apply hx
    have hv : x.val = (ct.get ⟨i, hi⟩).val := by omega
    exact Fin.ext hv
  have hclose : byteSum key * 65537 + byteSum nonce * 257 + byteSum (ct.set i x) + 11
      < (byteSum key * 65537 + byteSum nonce * 257 + byteSum ct + 11) + 2 ^ 128 ∧
      byteSum key * 65537 + byteSum nonce * 257 + byteSum ct + 11
      < (byteSum key * 65537 + byteSum nonce * 257 + byteSum (ct.set i x) + 11) + 2 ^ 128 := by
    have hxlt : x.val < 256 := x.isLt
    have hglt : (ct.get ⟨i, hi⟩).val < 256 := (ct.get ⟨i, hi⟩).isLt
    have h128 : (256 : Nat) < 2 ^ 128 := by norm_num
    omega
  have htag : tagNat key nonce (ct.set i x) ≠ tagNat key nonce ct :=
    mod_ne_of_close (by positivity) hne hclose
  exact htag (toLE_injOn (by simpa [Nat.pow_mul] using tagNat_lt key nonce (ct.set i x))
    (by simpa [Nat.pow_mul] using tagNat_lt key nonce ct) h)

/-- Modelled from the spec (§4.A, ChaCha20-Poly1305 variant): generate a
fresh 12-byte nonce, stream-encrypt, append the 16-byte tag.
`sealed = nonce || ciphertext || tag`. -/
def chachaSeal (key rand pt : Bytes) : Bytes :=
  let nonce := normTo 12 rand
  let ct := xorKS key nonce 0 pt
  nonce ++ ct ++ tagBytes key nonce ct

/-- Modelled from the spec (§4.A): split `nonce || ciphertext || tag` at the
fixed offsets, verify the tag (mismatch ⇒ `AuthFailure`), decrypt. -/
def chachaOpen (key sealed : Bytes) : Except Err Bytes :=
  if sealed.length < 28 then .error .AuthFailure
  else
    let nonce := sealed.take 12
    let rest := sealed.drop 12
    let ct := rest.take (rest.length - 16)
    let tag := rest.drop (rest.length - 16)
    if tag ≠ tagBytes key nonce ct then .error .AuthFailure
    else .ok (xorKS key nonce 0 ct)

theorem length_chachaSeal (key rand pt : Bytes) :
    (chachaSeal key rand pt).length = pt.length + 28 := by
  simp only [chachaSeal, List.length_append, length_normTo, length_xorKS, length_tagBytes]
  omega

theorem chachaOpen_chachaSeal (key rand pt : Bytes) :
    chachaOpen key (chachaSeal key rand pt) = .ok pt := by
  have hnonce : (normTo 12 rand).length = 12 := length_normTo _ _
  have hct : (xorKS key (normTo 12 rand) 0 pt).length = pt.length := length_xorKS _ _ _ _
  have hlen := length_chachaSeal key rand pt
  simp only [chachaOpen]
  rw [if_neg (by omega)]
  have hassoc : chachaSeal key rand pt = normTo 12 rand ++
      (xorKS key (normTo 12 rand) 0 pt ++
        tagBytes key (normTo 12 rand) (xorKS key (normTo 12 rand) 0 pt)) := by
    simp [chachaSeal]
  have htake12 : (chachaSeal key rand pt).take 12 = normTo 12 rand := by
    rw [hassoc]
    exact List.take_left' hnonce
  have hdrop12 : (chachaSeal key rand pt).drop 12 = xorKS key (normTo 12 rand) 0 pt ++
      tagBytes key (normTo 12 rand) (xorKS key (normTo 12 rand) 0 pt) := by
    rw [hassoc]
    exact List.drop_left' hnonce
  rw [htake12, hdrop12]
  have hrestlen : (xorKS key (normTo 12 rand) 0 pt ++
      tagBytes key (normTo 12 rand) (xorKS key (normTo 12 rand) 0 pt)).length
      = pt.length + 16 := by
    simp [List.length_append, hct, length_tagBytes]
  rw [hrestlen]
  have hsub : pt.length + 16 - 16 = pt.length := by omega
  rw [hsub]
  have htakect : (xorKS key (normTo 12 rand) 0 pt ++
      tagBytes key (normTo 12 rand) (xorKS key (normTo 12 rand) 0 pt)).take pt.length
      = xorKS key (normTo 12 rand) 0 pt := List.take_left' hct
  have hdropct : (xorKS key (normTo 12 rand) 0 pt ++
      tagBytes key (normTo 12 rand) (xorKS key (normTo 12 rand) 0 pt)).drop pt.length
      = tagBytes key (normTo 12 rand) (xorKS key (normTo 12 rand) 0 pt) := List.drop_left' hct
  rw [htakect, hdropct]
  rw [if_neg (by simp)]
  rw [xorKS_xorKS]

/-- Corrupting any single byte of the ciphertext or tag region of a ChaCha
sealing (offset `≥ 12`, i.e. past the nonce) makes `open` fail with
`AuthFailure` (spec §8 property 3). -/
theorem chachaOpen_tamper (key rand pt : Bytes) (o : Nat) (x : Byte)
    (ho1 : 12 ≤ o) (ho2 : o < pt.length + 28)
    (hx : x ≠ (chachaSeal key rand pt).getD o 0) :
    chachaOpen key ((chachaSeal key rand pt).set o x) = .error .AuthFailure := by
  have hnonce : (normTo 12 rand).length = 12 := length_normTo _ _
  have hct : (xorKS key (normTo 12 rand) 0 pt).length = pt.length := length_xorKS _ _ _ _
  have hlen := length_chachaSeal key rand pt
  set nonce := normTo 12 rand with hnonce_def
  set ct := xorKS key nonce 0 pt with hct_def
  set tag := tagBytes key nonce ct with htag_def
  have htaglen : tag.length = 16 := length_tagBytes _ _ _
  have hassoc : chachaSeal key rand pt = nonce ++ (ct ++ tag) := by
    simp [chachaSeal]
  have hsetlen : ((chachaSeal key rand pt).set o x).length = pt.length + 28 := by
    rw [List.length_set, hlen]
  have hsplit : (chachaSeal key rand pt).set o x
      = nonce ++ ((ct ++ tag).set (o - 12) x) := by
    rw [hassoc, set_append_right _ _ _ _ (by omega)]
    congr 2
    omega
  simp only [chachaOpen]
  rw [if_neg (by omega)]
  have hrest : ((chachaSeal key rand pt).set o x).drop 12 = (ct ++ tag).set (o - 12) x := by
    rw [hsplit]
    exact List.drop_left' hnonce
  have htake12 : ((chachaSeal key rand pt).set o x).take 12 = nonce := by
    rw [hsplit]
    exact List.take_left' hnonce
  rw [htake12, hrest]
  have hrestlen : ((ct ++ tag).set (o - 12) x).length = pt.length + 16 := by
    rw [List.length_set, List.length_append, hct, htaglen]
  rw [hrestlen]
  have hsub : pt.length + 16 - 16 = pt.length := by omega
  rw [hsub]
  have hgetD : (chachaSeal key rand pt).getD o 0 = (ct ++ tag).getD (o - 12) 0 := by
    rw [hassoc, getD_append_right _ _ _ _ (by omega), hnonce]
  rcases lt_or_le (o - 12) pt.length with hin | hout
  · -- corruption inside the ciphertext
    have htakes : ((ct ++ tag).set (o - 12) x).take pt.length
        = (ct.set (o - 12) x) := by
      rw [take_set_of_lt _ _ _ _ hin]
      congr 1
      exact List.take_left' hct
    have hdrops : ((ct ++ tag).set (o - 12) x).drop pt.length = tag := by
      rw [drop_set_of_lt _ _ _ _ hin]
      exact List.drop_left' hct
    rw [htakes, hdrops]
    have hget : (ct ++ tag).getD (o - 12) 0 = ct.get ⟨o - 12, by omega⟩ := by
      rw [getD_append_left _ _ _ _ (by omega)]
      exact getD_eq_get _ _ _ (by omega)
    rw [if_pos ?_]
    rw [htag_def]
    intro hcontra
    have := tagBytes_ne_of_set key nonce ct (o - 12) x (by omega)
      (by rw [← hget, ← hgetD]; exact hx)
    exact this hcontra.symm
  · -- corruption inside the tag
    have htakes : ((ct ++ tag).set (o - 12) x).take pt.length = ct := by
      rw [take_set_of_le _ _ _ _ hout]
      exact List.take_left' hct
    have hdrops : ((ct ++ tag).set (o - 12) x).drop pt.length
        = tag.set (o - 12 - pt.length) x := by
      rw [drop_set_of_le _ _ _ _ hout]
      congr 1
      exact List.drop_left' hct
    rw [htakes, hdrops]
    have hget : (ct ++ tag).getD (o - 12) 0 = tag.get ⟨o - 12 - pt.length, by omega⟩ := by
      rw [getD_append_right _ _ _ _ (by omega)]
      have he : o - 12 - ct.length = o - 12 - pt.length := by rw [hct]
      rw [he]
      exact getD_eq_get _ _ _ (by omega)
    rw [if_pos ?_]
    exact set_ne_of_get_ne tag (o - 12 - pt.length) x (by omega)
      (by rw [← hget, ← hgetD]; exact hx)

/-! ## Uniform algorithm adapter (spec §4.A) -/

/-- Modelled from the spec: `seal(algo, key, plaintext)`, with the freshly
sampled random IV/nonce made explicit as the `rand` oracle argument. -/
def sealA (algo : Algo) (key rand pt : Bytes) : Bytes :=
  match algo with
  | .aes => aesSeal key rand pt
  | .chacha => chachaSeal key rand pt

/-- Modelled from the spec: `open(algo, key, sealed_bytes)`. -/
def openA (algo : Algo) (key sealed : Bytes) : Except Err Bytes :=
  match algo with
  | .aes => aesOpen key sealed
  | .chacha => chachaOpen key sealed

theorem openA_sealA (algo : Algo) (key rand pt : Bytes) :
    openA algo key (sealA algo key rand pt) = .ok pt := by
  cases algo with
  | aes => exact aesOpen_aesSeal key rand pt
  | chacha => exact chachaOpen_chachaSeal key rand pt

theorem length_sealA_le (algo : Algo) (key rand pt : Bytes) :
    (sealA algo key rand pt).length ≤ pt.length + overhead algo := by
  cases algo with
  | aes =>
    show (aesSeal key rand pt).length ≤ pt.length + 32
    rw [length_aesSeal]
    have := Nat.div_mul_le_self pt.length 16
    omega
  | chacha =>
    show (chachaSeal key rand pt).length ≤ pt.length + 28
    rw [length_chachaSeal]

theorem take_randLen_sealA (algo : Algo) (key rand pt : Bytes)
    (h : rand.length = randLen algo) :
    (sealA algo key rand pt).take (randLen algo) = rand := by
  cases algo with
  | aes =>
    show (aesSeal key rand pt).take 16 = rand
    have h16 : rand.length = 16 := h
    simp only [aesSeal]
    rw [normTo_of_length h16]
    exact List.take_left' h16
  | chacha =>
    show (chachaSeal key rand pt).take 12 = rand
    have h12 : rand.length = 12 := h
    have hassoc : chachaSeal key rand pt = normTo 12 rand ++
        (xorKS key (normTo 12 rand) 0 pt ++
          tagBytes key (normTo 12 rand) (xorKS key (normTo 12 rand) 0 pt)) := by
      simp [chachaSeal]
    rw [hassoc, normTo_of_length h12]
    exact List.take_left' h12

/-! ## Frame codec (spec §4.B)

A frame is `len (4 bytes LE) || sealed_bytes (len bytes)`. -/

/-- Modelled from the spec: `encode(sealed)` writes the 4-byte little-endian
length then the sealed bytes. -/
def encodeFrame (s : Bytes) : Bytes :=
  toLE 4 s.length ++ s

/-- Modelled from the spec: `decode` loop over a byte stream.  EOF during
the 4-byte length prefix is clean end-of-stream, EOF inside the payload is
`TruncatedFrame`.  The fuel argument (instantiated with the stream length,
which each iteration strictly decreases) keeps the recursion structural. -/
def decodeFramesF : Nat → Bytes → Except Err (List Bytes)
  | 0, _ => .ok []
  | f + 1, bs =>
    if bs.length < 4 then .ok []
    else if (bs.drop 4).length < fromLE (bs.take 4) then .error .TruncatedFrame
    else
      match decodeFramesF f ((bs.drop 4).drop (fromLE (bs.take 4))) with
      | .error e => .error e
      | .ok frames => .ok ((bs.drop 4).take (fromLE (bs.take 4)) :: frames)

/-- Decode all frames of a byte stream. -/
def decodeFrames (bs : Bytes) : Except Err (List Bytes) :=
  decodeFramesF bs.length bs

theorem decodeFramesF_short {f : Nat} {bs : Bytes} (h : bs.length < 4) :
    decodeFramesF f bs = .ok [] := by
  cases f with
  | zero => rfl
  | succ f => simp [decodeFramesF, if_pos h]

theorem decodeFramesF_fuel : ∀ (f₁ : Nat) (f₂ : Nat) (bs : Bytes),
    bs.length ≤ f₁ → bs.length ≤ f₂ → decodeFramesF f₁ bs = decodeFramesF f₂ bs := by
  intro f₁
  induction f₁ with
  | zero =>
    intro f₂ bs h1 _
    have hnil : bs.length < 4 := by omega
    rw [decodeFramesF_short hnil, decodeFramesF_short hnil]
  | succ f ih =>
    intro f₂ bs h1 h2
    by_cases hb : bs.length < 4
    · rw [decodeFramesF_short hb, decodeFramesF_short hb]
    · obtain ⟨g, rfl⟩ : ∃ g, f₂ = g + 1 := ⟨f₂ - 1, by omega⟩
      have hrec : decodeFramesF f ((bs.drop 4).drop (fromLE (bs.take 4)))
          = decodeFramesF g ((bs.drop 4).drop (fromLE (bs.take 4))) := by
        apply ih
        · simp only [List.length_drop]
          omega
        · simp only [List.length_drop]
          omega
      show (if bs.length < 4 then Except.ok [] else _)
          = (if bs.length < 4 then Except.ok [] else _)
      rw [if_neg hb, if_neg hb, hrec]

theorem decodeFrames_cons (s rest : Bytes) (hs : s.length < 2 ^ 32) :
    decodeFrames (encodeFrame s ++ rest) =
      match decodeFrames rest with
      | .error e => .error e
      | .ok frames => .ok (s :: frames) := by
  have h4 : (toLE 4 s.length).length = 4 := length_toLE _ _
  have hassoc : encodeFrame s ++ rest = toLE 4 s.length ++ (s ++ rest) := by
    simp [encodeFrame]
  have hlen : (encodeFrame s ++ rest).length = 4 + (s.length + rest.length) := by
    rw [hassoc]
    simp [h4]
  obtain ⟨f, hf⟩ : ∃ f, (encodeFrame s ++ rest).length = f + 1 :=
    ⟨3 + s.length + rest.length, by omega⟩
  show decodeFramesF (encodeFrame s ++ rest).length (encodeFrame s ++ rest) = _
  rw [hf]
  show (if (encodeFrame s ++ rest).length < 4 then Except.ok [] else _) = _
  rw [if_neg (by omega)]
  have htake4 : (encodeFrame s ++ rest).take 4 = toLE 4 s.length := by
    rw [hassoc]
    exact List.take_left' h4
  have hdrop4 : (encodeFrame s ++ rest).drop 4 = s ++ rest := by
    rw [hassoc]
    exact List.drop_left' h4
  have hfrom : fromLE ((encodeFrame s ++ rest).take 4) = s.length := by
    rw [htake4]
    exact fromLE_toLE_of_lt (by norm_num; omega)
  rw [hfrom, hdrop4]
  have hnotrunc : ¬ ((s ++ rest).length < s.length) := by
    simp only [List.length_append]
    omega
  rw [if_neg hnotrunc]
  have htakes : (s ++ rest).take s.length = s := List.take_left' rfl
  have hdrops : (s ++ rest).drop s.length = rest := List.drop_left' rfl
  rw [htakes, hdrops]
  have hfuel : decodeFramesF f rest = decodeFrames rest := by
    apply decodeFramesF_fuel
    · omega
    · exact Nat.le_refl _
  rw [hfuel]

theorem decodeFrames_truncated (bs : Bytes) (h4 : 4 ≤ bs.length)
    (hshort : (bs.drop 4).length < fromLE (bs.take 4)) :
    decodeFrames bs = .error .TruncatedFrame := by
  obtain ⟨f, hf⟩ : ∃ f, bs.length = f + 1 := ⟨bs.length - 1, by omega⟩
  show decodeFramesF bs.length bs = _
  rw [hf]
  show (if bs.length < 4 then Except.ok [] else _) = _
  rw [if_neg (by omega), if_pos hshort]

theorem decodeFrames_nil : decodeFrames [] = .ok [] := by
  rfl

theorem decodeFrames_flatten (S : List Bytes) (h : ∀ s ∈ S, s.length < 2 ^ 32) :
    decodeFrames ((S.map encodeFrame).flatten) = .ok S := by
  induction S with
  | nil => exact decodeFrames_nil
  | cons s ss ih =>
    have hflat : ((s :: ss).map encodeFrame).flatten
        = encodeFrame s ++ (ss.map encodeFrame).flatten := by simp
    rw [hflat, decodeFrames_cons s _ (h s (by simp))]
    rw [ih (fun t ht => h t (by simp [ht]))]

/-! ## Streaming encryptor internals (spec §4.D) -/

/-- Seal each chunk in input order; chunk `j` consumes the `j`-th freshly
sampled IV/nonce from the randomness oracle `ivs`. -/
def sealChunks (algo : Algo) (key : Bytes) (ivs : Nat → Bytes) :
    Nat → List Bytes → List Bytes
  | _, [] => []
  | j, c :: cs => sealA algo key (ivs j) c :: sealChunks algo key ivs (j + 1) cs

/-- Open each sealed frame in order; the first failure aborts. -/
def openFrames (algo : Algo) (key : Bytes) : List Bytes → Except Err (List Bytes)
  | [] => .ok []
  | s :: ss =>
    match openA algo key s with
    | .error e => .error e
    | .ok p =>
      match openFrames algo key ss with
      | .error e => .error e
      | .ok ps => .ok (p :: ps)

theorem length_sealChunks (algo : Algo) (key : Bytes) (ivs : Nat → Bytes) :
    ∀ (j : Nat) (cs : List Bytes), (sealChunks algo key ivs j cs).length = cs.length := by
  intro j cs
  induction cs generalizing j with
  | nil => rfl
  | cons c cs ih => simp [sealChunks, ih]

theorem openFrames_sealChunks (algo : Algo) (key : Bytes) (ivs : Nat → Bytes) :
    ∀ (j : Nat) (cs : List Bytes),
      openFrames algo key (sealChunks algo key ivs j cs) = .ok cs := by
  intro j cs
  induction cs generalizing j with
  | nil => rfl
  | cons c cs ih =>
    show openFrames algo key (sealA algo key (ivs j) c :: sealChunks algo key ivs (j + 1) cs) = _
    show (match openA algo key (sealA algo key (ivs j) c) with
      | Except.error e => Except.error e
      | Except.ok p => match openFrames algo key (sealChunks algo key ivs (j + 1) cs) with
        | Except.error e => Except.error e
        | Except.ok ps => Except.ok (p :: ps)) = _
    rw [openA_sealA, ih (j + 1)]

theorem sealChunks_mem_length_lt (algo : Algo) (key : Bytes) (ivs : Nat → Bytes)
    (C : Nat) (hC : C + overhead algo ≤ 4294967295) :
    ∀ (j : Nat) (cs : List Bytes), (∀ c ∈ cs, c.length ≤ C) →
      ∀ s ∈ sealChunks algo key ivs j cs, s.length < 2 ^ 32 := by
  intro j cs
  induction cs generalizing j with
  | nil => intro _ s hs; simp [sealChunks] at hs
  | cons c cs ih =>
    intro hall s hs
    simp only [sealChunks, List.mem_cons] at hs
    rcases hs with h | h
    · have h1 := length_sealA_le algo key (ivs j) c
      have h2 : c.length ≤ C := hall c (by simp)
      rw [h]
      calc (sealA algo key (ivs j) c).length ≤ c.length + overhead algo := h1
        _ ≤ C + overhead algo := by omega
        _ < 2 ^ 32 := by omega
    · exact ih (j + 1) (fun t ht => hall t (by simp [ht])) s h

/-! ## Container header (spec §4.C) -/

/-- Modelled from the spec: the 8-byte ASCII magic `"ENCFILE1"`. -/
def MAGIC : Bytes := [69, 78, 67, 70, 73, 76, 69, 49]

/-- Modelled from the spec: the 24-byte container header
`magic(8) || version(2, LE) || algo(2, LE) || flags(4, zero) || chunkSize(8, LE)`. -/
def headerBytes (algo : Algo) (chunkSize : Nat) : Bytes :=
  MAGIC ++ toLE 2 1 ++ toLE 2 (wireCode algo) ++ toLE 4 0 ++ toLE 8 chunkSize

theorem length_headerBytes (algo : Algo) (chunkSize : Nat) :
    (headerBytes algo chunkSize).length = 24 := by
  simp [headerBytes, MAGIC, length_toLE]

theorem wireCode_lt (algo : Algo) : wireCode algo < 2 ^ 16 := by
  cases algo with
  | aes => norm_num [wireCode]
  | chacha => norm_num [wireCode]

/-- Every field of a written header parses back from the whole file. -/
theorem header_fields (algo : Algo) (C : Nat) (body : Bytes) (hC : C < 2 ^ 64) :
    (headerBytes algo C ++ body).take 8 = MAGIC ∧
    fromLE (((headerBytes algo C ++ body).drop 8).take 2) = 1 ∧
    fromLE (((headerBytes algo C ++ body).drop 10).take 2) = wireCode algo ∧
    fromLE (((headerBytes algo C ++ body).drop 12).take 4) = 0 ∧
    fromLE (((headerBytes algo C ++ body).drop 16).take 8) = C ∧
    (headerBytes algo C ++ body).drop 24 = body := by
  have hassoc : headerBytes algo C ++ body
      = MAGIC ++ (toLE 2 1 ++ (toLE 2 (wireCode algo) ++ (toLE 4 0 ++ (toLE 8 C ++ body)))) := by
    simp [headerBytes]
  have hm : (MAGIC : Bytes).length = 8 := rfl
  have hd8 : (headerBytes algo C ++ body).drop 8
      = toLE 2 1 ++ (toLE 2 (wireCode algo) ++ (toLE 4 0 ++ (toLE 8 C ++ body))) := by
    rw [hassoc]
    exact List.drop_left' hm
  have hd10 : (headerBytes algo C ++ body).drop 10
      = toLE 2 (wireCode algo) ++ (toLE 4 0 ++ (toLE 8 C ++ body)) := by
    have h2 : ((headerBytes algo C ++ body).drop 8).drop 2 = (headerBytes algo C ++ body).drop 10 := by
      rw [List.drop_drop]
    rw [← h2, hd8]
    exact List.drop_left' (length_toLE _ _)
  have hd12 : (headerBytes algo C ++ body).drop 12
      = toLE 4 0 ++ (toLE 8 C ++ body) := by
    have h2 : ((headerBytes algo C ++ body).drop 10).drop 2 = (headerBytes algo C ++ body).drop 12 := by
      rw [List.drop_drop]
    rw [← h2, hd10]
    exact List.drop_left' (length_toLE _ _)
  have hd16 : (headerBytes algo C ++ body).drop 16
      = toLE 8 C ++ body := by
    have h2 : ((headerBytes algo C ++ body).drop 12).drop 4 = (headerBytes algo C ++ body).drop 16 := by
      rw [List.drop_drop]
    rw [← h2, hd12]
    exact List.drop_left' (length_toLE _ _)
  have hd24 : (headerBytes algo C ++ body).drop 24 = body := by
    have h2 : ((headerBytes algo C ++ body).drop 16).drop 8 = (headerBytes algo C ++ body).drop 24 := by
      rw [List.drop_drop]
    rw [← h2, hd16]
    exact List.drop_left' (length_toLE _ _)
  refine ⟨?_, ?_, ?_, ?_, ?_, hd24⟩
  · rw [hassoc]
    exact List.take_left' hm
  · rw [hd8, List.take_left' (length_toLE _ _)]
    exact fromLE_toLE_of_lt (by norm_num)
  · rw [hd10, List.take_left' (length_toLE _ _)]
    exact fromLE_toLE_of_lt (by have := wireCode_lt algo; norm_num; omega)
  · rw [hd12, List.take_left' (length_toLE _ _)]
    exact fromLE_toLE_of_lt (by norm_num)
  · rw [hd16, List.take_left' (length_toLE _ _)]
    exact fromLE_toLE_of_lt (by norm_num; omega)

/-! ## Result records

Field names follow the JavaScript objects observed at the public surface
(`src/example/index.js`): the whole-file and chunked-encrypt records use
`fileSize` / `chunkSize` / `totalChunks`, while the chunked-decrypt record
uses the `...KB`-suffixed names the example caller reads
(`result.originalSizeKB`, `result.totalBytesKB`, `result.chunkSizeKB`,
`result.totalChunks`).  All sizes are kilobytes: bytes divided by 1024,
truncated (spec §6.3). -/

structure EncRes where
  fileSize : Nat
  deriving DecidableEq, Repr

structure DecRes where
  fileSize : Nat
  encryptedSize : Nat
  deriving DecidableEq, Repr

structure ChunkEncRes where
  fileSize : Nat
  chunkSize : Nat
  totalChunks : Nat
  deriving DecidableEq, Repr

structure ChunkDecRes where
  originalSizeKB : Nat
  totalBytesKB : Nat
  chunkSizeKB : Nat
  totalChunks : Nat
  deriving DecidableEq, Repr

/-! ## Whole-file operations on byte strings (spec §4.F) -/

/-- Modelled from the spec: whole-file encryption core.  The output is one
`sealed_bytes` blob, with no container header and no length prefix. -/
def encryptBytes (algo : Algo) (key rand pt : Bytes) : Except Err (Bytes × EncRes) :=
  if key.length ≠ 32 then .error .InvalidKeyLength
  else .ok (sealA algo key rand pt, ⟨pt.length / 1024⟩)

/-- Modelled from the spec: whole-file decryption core. -/
def decryptBytes (algo : Algo) (key ct : Bytes) : Except Err (Bytes × DecRes) :=
  if key.length ≠ 32 then .error .InvalidKeyLength
  else
    match openA algo key ct with
    | .error e => .error e
    | .ok pt => .ok (pt, ⟨pt.length / 1024, ct.length / 1024⟩)

/-! ## Streaming operations on byte strings (spec §4.D, §4.E) -/

/-- Modelled from the spec: streaming encryption core.  Writes the 24-byte
container header, then one frame per chunk of `chunkSizeMiB × 1,048,576`
bytes, in input order; rejects chunk sizes whose sealed frame could exceed
the 4-byte frame length (`FrameTooLarge`). -/
def chunkEncryptBytes (algo : Algo) (key : Bytes) (ivs : Nat → Bytes)
    (input : Bytes) (chunkSizeMiB : Nat) : Except Err (Bytes × ChunkEncRes) :=
  if key.length ≠ 32 then .error .InvalidKeyLength
  else if 4294967295 < chunkSizeMiB * 1048576 + overhead algo then .error .FrameTooLarge
  else
    .ok (headerBytes algo (chunkSizeMiB * 1048576) ++
          ((sealChunks algo key ivs 0 (chunksOf (chunkSizeMiB * 1048576) input)).map
            encodeFrame).flatten,
        ⟨input.length / 1024, chunkSizeMiB * 1048576 / 1024,
          (chunksOf (chunkSizeMiB * 1048576) input).length⟩)

/-- Modelled from the spec: streaming decryption core.  Validates the header
(magic, version, algorithm id, flags, requested-algorithm cross-check, in
that order), then decodes and opens every frame. -/
def chunkDecryptBytes (algo : Algo) (key file : Bytes) : Except Err (Bytes × ChunkDecRes) :=
  if key.length ≠ 32 then .error .InvalidKeyLength
  else if file.take 8 ≠ MAGIC then .error .NotAContainer
  else if fromLE ((file.drop 8).take 2) ≠ 1 then .error .UnsupportedVersion
  else
    match codeToAlgo (fromLE ((file.drop 10).take 2)) with
    | none => .error .UnknownAlgorithm
    | some halgo =>
      if fromLE ((file.drop 12).take 4) ≠ 0 then .error .UnsupportedFlags
      else if halgo ≠ algo then .error .AlgorithmMismatch
      else
        match decodeFrames (file.drop 24) with
        | .error e => .error e
        | .ok frames =>
          match openFrames algo key frames with
          | .error e => .error e
          | .ok pts =>
            .ok (pts.flatten,
              ⟨pts.flatten.length / 1024, file.length / 1024,
                fromLE ((file.drop 16).take 8) / 1024, frames.length⟩)

/-! ## Filesystem layer

A filesystem is a partial map from paths to file contents.  On any error
the engine attempts removal of the partially written output (spec §7
propagation policy). -/

def FS : Type := String → Option Bytes

/-- Write (`some`) or remove (`none`) the file at a path. -/
def setFS (fs : FS) (p : String) (v : Option Bytes) : FS :=
  fun q => if q = p then v else fs q

theorem setFS_same (fs : FS) (p : String) (v : Option Bytes) : setFS fs p v p = v := by
  simp [setFS]

/-- Modelled from the spec: `encryptFile(algo, key, inPath, outPath)`,
randomness oracle explicit. -/
def encryptFile (algo : Algo) (key rand : Bytes) (inPath outPath : String)
    (fs : FS) : Except Err EncRes × FS :=
  match fs inPath with
  | none => (.error .IoError, fs)
  | some pt =>
    match encryptBytes algo key rand pt with
    | .ok (ct, r) => (.ok r, setFS fs outPath (some ct))
    | .error e => (.error e, setFS fs outPath none)

/-- Modelled from the spec: `decryptFile(algo, key, inPath, outPath)`. -/
def decryptFile (algo : Algo) (key : Bytes) (inPath outPath : String)
    (fs : FS) : Except Err DecRes × FS :=
  match fs inPath with
  | none => (.error .IoError, fs)
  | some ct =>
    match decryptBytes algo key ct with
    | .ok (pt, r) => (.ok r, setFS fs outPath (some pt))
    | .error e => (.error e, setFS fs outPath none)

/-- Modelled from the spec: `chunkEncryptFile(algo, key, inPath, outPath,
chunkSizeMiB)`, randomness oracle explicit. -/
def chunkEncryptFile (algo : Algo) (key : Bytes) (ivs : Nat → Bytes)
    (inPath outPath : String) (chunkSizeMiB : Nat) (fs : FS) :
    Except Err ChunkEncRes × FS :=
  match fs inPath with
  | none => (.error .IoError, fs)
  | some pt =>
    match chunkEncryptBytes algo key ivs pt chunkSizeMiB with
    | .ok (ct, r) => (.ok r, setFS fs outPath (some ct))
    | .error e => (.error e, setFS fs outPath none)

/-- Modelled from the spec: `chunkDecryptFile(algo, key, inPath, outPath)`;
on failure the partially written output is removed. -/
def chunkDecryptFile (algo : Algo) (key : Bytes) (inPath outPath : String)
    (fs : FS) : Except Err ChunkDecRes × FS :=
  match fs inPath with
  | none => (.error .IoError, fs)
  | some ct =>
    match chunkDecryptBytes algo key ct with
    | .ok (pt, r) => (.ok r, setFS fs outPath (some pt))
    | .error e => (.error e, setFS fs outPath none)

/-- Modelled from the spec (§4.G): `getFileSize(path)` returns the byte size
reported by the filesystem; `IoError` when the query fails. -/
def getFileSize (fs : FS) (path : String) : Except Err Nat :=
  match fs path with
  | none => .error .IoError
  | some content => .ok content.length

/-! ## Round-trip lemmas -/

theorem chunksOf_mem_length_le {α : Type} {c : Nat} (hc : 0 < c) (l : List α) :
    ∀ b ∈ chunksOf c l, b.length ≤ c := by
  intro b hb
  have hmem : b.length ∈ (chunksOf c l).map List.length := List.mem_map_of_mem List.length hb
  rw [chunksOf_lens hc] at hmem
  exact chunkLensF_mem_le _ _ _ hmem

theorem encryptBytes_eq (algo : Algo) (key rand pt : Bytes) (hk : key.length = 32) :
    encryptBytes algo key rand pt = .ok (sealA algo key rand pt, ⟨pt.length / 1024⟩) := by
  unfold encryptBytes
  rw [if_neg (by omega)]

theorem decryptBytes_encryptBytes (algo : Algo) (key rand pt : Bytes)
    (hk : key.length = 32) (ct : Bytes) (r : EncRes)
    (henc : encryptBytes algo key rand pt = .ok (ct, r)) :
    decryptBytes algo key ct = .ok (pt, ⟨pt.length / 1024, ct.length / 1024⟩) := by
  rw [encryptBytes_eq algo key rand pt hk] at henc
  have hct : ct = sealA algo key rand pt := by
    simp only [Except.ok.injEq, Prod.mk.injEq] at henc
    exact henc.1.symm
  subst hct
  unfold decryptBytes
  rw [if_neg (by omega), openA_sealA]

theorem chunkEncryptBytes_eq (algo : Algo) (key : Bytes) (ivs : Nat → Bytes)
    (input : Bytes) (m : Nat) (hk : key.length = 32)
    (hg : m * 1048576 + overhead algo ≤ 4294967295) :
    chunkEncryptBytes algo key ivs input m =
      .ok (headerBytes algo (m * 1048576) ++
            ((sealChunks algo key ivs 0 (chunksOf (m * 1048576) input)).map
              encodeFrame).flatten,
          ⟨input.length / 1024, m * 1048576 / 1024,
            (chunksOf (m * 1048576) input).length⟩) := by
  unfold chunkEncryptBytes
  rw [if_neg (by omega), if_neg (by omega)]

theorem codeToAlgo_wireCode (algo : Algo) : codeToAlgo (wireCode algo) = some algo := by
  cases algo with
  | aes => rfl
  | chacha => rfl

/-- Decrypting a container assembled from the header and a list of frames
that each open successfully recovers the concatenated plaintexts. -/
theorem chunkDecryptBytes_container (algo : Algo) (key : Bytes) (S : List Bytes)
    (C : Nat) (hk : key.length = 32) (hC : C < 2 ^ 64)
    (hlens : ∀ s ∈ S, s.length < 2 ^ 32)
    (pts : List Bytes) (hopen : openFrames algo key S = .ok pts) :
    chunkDecryptBytes algo key (headerBytes algo C ++ (S.map encodeFrame).flatten)
      = .ok (pts.flatten,
          ⟨pts.flatten.length / 1024,
            (headerBytes algo C ++ (S.map encodeFrame).flatten).length / 1024,
            C / 1024, S.length⟩) := by
  have h := header_fields algo C ((S.map encodeFrame).flatten) hC
  unfold chunkDecryptBytes
  rw [if_neg (by omega)]
  rw [if_neg (by rw [h.1]; simp)]
  rw [if_neg (by rw [h.2.1]; simp)]
  rw [h.2.2.1, codeToAlgo_wireCode]
  show (if fromLE (((headerBytes algo C ++ (S.map encodeFrame).flatten).drop 12).take 4) ≠ 0
      then Except.error Err.UnsupportedFlags else _) = _
  rw [if_neg (by rw [h.2.2.2.1]; simp)]
  rw [if_neg (by simp)]
  rw [h.2.2.2.2.2]
  rw [decodeFrames_flatten S hlens]
  simp only [hopen, h.2.2.2.2.1]

/-- Full streaming round trip on the byte level. -/
theorem chunkDecryptBytes_chunkEncryptBytes (algo : Algo) (key : Bytes)
    (ivs : Nat → Bytes) (input : Bytes) (m : Nat) (hk : key.length = 32)
    (hm : 0 < m) (hg : m * 1048576 + overhead algo ≤ 4294967295)
    (file : Bytes) (r : ChunkEncRes)
    (henc : chunkEncryptBytes algo key ivs input m = .ok (file, r)) :
    chunkDecryptBytes algo key file
      = .ok (input,
          ⟨input.length / 1024, file.length / 1024, m * 1048576 / 1024,
            (chunksOf (m * 1048576) input).length⟩) := by
  rw [chunkEncryptBytes_eq algo key ivs input m hk hg] at henc
  have hfile : file = headerBytes algo (m * 1048576) ++
      ((sealChunks algo key ivs 0 (chunksOf (m * 1048576) input)).map encodeFrame).flatten := by
    simp only [Except.ok.injEq, Prod.mk.injEq] at henc
    exact henc.1.symm
  subst hfile
  have hCpos : 0 < m * 1048576 := by positivity
  have hchunklens := chunksOf_mem_length_le hCpos input
  have hslens := sealChunks_mem_length_lt algo key ivs (m * 1048576) hg 0
      (chunksOf (m * 1048576) input) hchunklens
  have hopen := openFrames_sealChunks algo key ivs 0 (chunksOf (m * 1048576) input)
  have h := chunkDecryptBytes_container algo key
      (sealChunks algo key ivs 0 (chunksOf (m * 1048576) input)) (m * 1048576) hk
      (by omega) hslens (chunksOf (m * 1048576) input) hopen
  rw [h]
  rw [chunksOf_flatten hCpos]
  rw [length_sealChunks]

/-! ## Byte-level tampering of a streaming container (C2 machinery) -/

theorem set_append_left {α : Type} (a b : List α) (i : Nat) (x : α) (h : i < a.length) :
    (a ++ b).set i x = a.set i x ++ b := by
  induction a generalizing i with
  | nil => simp at h
  | cons y ys ih =>
    cases i with
    | zero => simp [List.set]
    | succ j =>
      simp only [List.cons_append, List.set, List.append_eq]
      rw [ih j (by simpa using Nat.lt_of_succ_lt_succ h)]

/-- Absolute offset of frame `j` inside the frame area of a container whose
sealed payloads are `S` (each frame is 4 length bytes plus its payload). -/
def framePos : List Bytes → Nat → Nat
  | _, 0 => 0
  | [], _ + 1 => 0
  | s :: ss, j + 1 => 4 + s.length + framePos ss j

/-- Setting the byte at offset `framePos S j + 4 + o` of the encoded frame
area replaces byte `o` of payload `j`. -/
theorem flatten_encodeFrame_set (S : List Bytes) :
    ∀ (j o : Nat) (x : Byte) (hj : j < S.length), o < (S.get ⟨j, hj⟩).length →
      ((S.map encodeFrame).flatten).set (framePos S j + 4 + o) x
        = ((S.set j ((S.get ⟨j, hj⟩).set o x)).map encodeFrame).flatten := by
  induction S with
  | nil => intro j o x hj ho; simp at hj
  | cons s ss ih =>
    intro j o x hj ho
    cases j with
    | zero =>
      simp only [framePos, List.get] at ho ⊢
      show ((encodeFrame s ++ (ss.map encodeFrame).flatten)).set (0 + 4 + o) x = _
      have hassoc : encodeFrame s ++ (ss.map encodeFrame).flatten
          = toLE 4 s.length ++ (s ++ (ss.map encodeFrame).flatten) := by
        simp [encodeFrame]
      rw [hassoc]
      rw [set_append_right _ _ _ _ (by rw [length_toLE]; omega)]
      rw [length_toLE]
      have hidx : 0 + 4 + o - 4 = o := by omega
      rw [hidx]
      rw [set_append_left _ _ _ _ (by omega)]
      have hgoal : ((s.set o x :: ss).map encodeFrame).flatten
          = toLE 4 s.length ++ (s.set o x ++ (ss.map encodeFrame).flatten) := by
        simp only [List.map_cons, List.flatten_cons, encodeFrame, List.length_set]
        simp [List.append_assoc]
      rw [List.set]
      rw [hgoal]
    | succ j =>
      have hj2 : j < ss.length := by simpa using Nat.lt_of_succ_lt_succ hj
      have hget : (s :: ss).get ⟨j + 1, hj⟩ = ss.get ⟨j, hj2⟩ := rfl
      rw [hget] at ho ⊢
      show ((encodeFrame s ++ (ss.map encodeFrame).flatten)).set
          (4 + s.length + framePos ss j + 4 + o) x = _
      have hel : (encodeFrame s).length = 4 + s.length := by
        simp [encodeFrame, length_toLE]
      rw [set_append_right _ _ _ _ (by rw [hel]; omega)]
      rw [hel]
      have hidx : 4 + s.length + framePos ss j + 4 + o - (4 + s.length)
          = framePos ss j + 4 + o := by omega
      rw [hidx]
      rw [ih j o x hj2 ho]
      simp [List.set]

/-- Reading the byte at offset `framePos S j + 4 + o` of the encoded frame
area reads byte `o` of payload `j`. -/
theorem flatten_encodeFrame_getD (S : List Bytes) :
    ∀ (j o : Nat) (hj : j < S.length), o < (S.get ⟨j, hj⟩).length →
      ((S.map encodeFrame).flatten).getD (framePos S j + 4 + o) 0
        = (S.get ⟨j, hj⟩).getD o 0 := by
  induction S with
  | nil => intro j o hj ho; simp at hj
  | cons s ss ih =>
    intro j o hj ho
    cases j with
    | zero =>
      simp only [framePos, List.get] at ho ⊢
      show ((encodeFrame s ++ (ss.map encodeFrame).flatten)).getD (0 + 4 + o) 0 = _
      have hassoc : encodeFrame s ++ (ss.map encodeFrame).flatten
          = toLE 4 s.length ++ (s ++ (ss.map encodeFrame).flatten) := by
        simp [encodeFrame]
      rw [hassoc]
      rw [getD_append_right _ _ _ _ (by rw [length_toLE]; omega)]
      rw [length_toLE]
      have hidx : 0 + 4 + o - 4 = o := by omega
      rw [hidx]
      exact getD_append_left _ _ _ _ (by omega)
    | succ j =>
      have hj2 : j < ss.length := by simpa using Nat.lt_of_succ_lt_succ hj
      have hget : (s :: ss).get ⟨j + 1, hj⟩ = ss.get ⟨j, hj2⟩ := rfl
      rw [hget] at ho ⊢
      show ((encodeFrame s ++ (ss.map encodeFrame).flatten)).getD
          (4 + s.length + framePos ss j + 4 + o) 0 = _
      have hel : (encodeFrame s).length = 4 + s.length := by
        simp [encodeFrame, length_toLE]
      rw [getD_append_right _ _ _ _ (by rw [hel]; omega)]
      rw [hel]
      have hidx : 4 + s.length + framePos ss j + 4 + o - (4 + s.length)
          = framePos ss j + 4 + o := by omega
      rw [hidx]
      exact ih j o hj2 ho

/-- If every payload of `S` opens successfully but the replacement `x` put
at index `j` fails with `e`, the whole open loop fails with `e`. -/
theorem openFrames_set_error (algo : Algo) (key : Bytes) :
    ∀ (S : List Bytes) (j : Nat) (x : Bytes) (e : Err),
      (∀ s ∈ S, ∃ p, openA algo key s = .ok p) → j < S.length →
      openA algo key x = .error e →
      openFrames algo key (S.set j x) = .error e := by
  intro S
  induction S with
  | nil => intro j x e _ hj _; simp at hj
  | cons s ss ih =>
    intro j x e hall hj hx
    cases j with
    | zero =>
      show openFrames algo key (x :: ss) = _
      show (match openA algo key x with
        | Except.error e => Except.error e
        | Except.ok p => match openFrames algo key ss with
          | Except.error e => Except.error e
          | Except.ok ps => Except.ok (p :: ps)) = _
      rw [hx]
    | succ j =>
      obtain ⟨p, hp⟩ := hall s (by simp)
      show openFrames algo key (s :: ss.set j x) = _
      show (match openA algo key s with
        | Except.error e => Except.error e
        | Except.ok p => match openFrames algo key (ss.set j x) with
          | Except.error e => Except.error e
          | Except.ok ps => Except.ok (p :: ps)) = _
      rw [hp, ih j x e (fun t ht => hall t (by simp [ht])) (by simpa using hj) hx]

theorem sealChunks_open_ok (algo : Algo) (key : Bytes) (ivs : Nat → Bytes) :
    ∀ (j : Nat) (cs : List Bytes) (s : Bytes), s ∈ sealChunks algo key ivs j cs →
      ∃ p, openA algo key s = .ok p := by
  intro j cs
  induction cs generalizing j with
  | nil => intro s hs; simp [sealChunks] at hs
  | cons c cs ih =>
    intro s hs
    simp only [sealChunks, List.mem_cons] at hs
    rcases hs with h | h
    · exact ⟨c, by rw [h]; exact openA_sealA algo key (ivs j) c⟩
    · exact ih (j + 1) s h

theorem sealChunks_getD (algo : Algo) (key : Bytes) (ivs : Nat → Bytes) :
    ∀ (cs : List Bytes) (j0 i : Nat), i < cs.length →
      (sealChunks algo key ivs j0 cs).getD i []
        = sealA algo key (ivs (j0 + i)) (cs.getD i []) := by
  intro cs
  induction cs with
  | nil => intro j0 i hi; simp at hi
  | cons c cs ih =>
    intro j0 i hi
    cases i with
    | zero => simp [sealChunks]
    | succ i2 =>
      show (sealChunks algo key ivs (j0 + 1) cs).getD i2 [] = _
      rw [ih (j0 + 1) i2 (by simpa using Nat.lt_of_succ_lt_succ hi)]
      have he : j0 + 1 + i2 = j0 + (i2 + 1) := by omega
      rw [he]
      rfl

/-- A container whose frame area decodes but whose open loop fails yields
exactly that failure. -/
theorem chunkDecryptBytes_container_error (algo : Algo) (key : Bytes) (S : List Bytes)
    (C : Nat) (hk : key.length = 32) (hC : C < 2 ^ 64)
    (hlens : ∀ s ∈ S, s.length < 2 ^ 32)
    (e : Err) (hopen : openFrames algo key S = .error e) :
    chunkDecryptBytes algo key (headerBytes algo C ++ (S.map encodeFrame).flatten)
      = .error e := by
  have h := header_fields algo C ((S.map encodeFrame).flatten) hC
  unfold chunkDecryptBytes
  rw [if_neg (by omega)]
  rw [if_neg (by rw [h.1]; simp)]
  rw [if_neg (by rw [h.2.1]; simp)]
  rw [h.2.2.1, codeToAlgo_wireCode]
  show (if fromLE (((headerBytes algo C ++ (S.map encodeFrame).flatten).drop 12).take 4) ≠ 0
      then Except.error Err.UnsupportedFlags else _) = _
  rw [if_neg (by rw [h.2.2.2.1]; simp)]
  rw [if_neg (by simp)]
  rw [h.2.2.2.2.2]
  rw [decodeFrames_flatten S hlens]
  simp only [hopen]

/-- Flipping any bit of any byte in the ciphertext-or-tag region of any
frame of a ChaCha streaming container makes the streaming decryptor fail
with `AuthFailure`. -/
theorem chunkDecryptBytes_tamper (key : Bytes) (ivs : Nat → Bytes) (input : Bytes)
    (m j o k : Nat) (hk : key.length = 32)
    (hg : m * 1048576 + 28 ≤ 4294967295)
    (file : Bytes) (r : ChunkEncRes)
    (henc : chunkEncryptBytes Algo.chacha key ivs input m = .ok (file, r))
    (hj : j < (chunksOf (m * 1048576) input).length)
    (ho1 : 12 ≤ o)
    (ho2 : o < ((chunksOf (m * 1048576) input).getD j []).length + 28) :
    chunkDecryptBytes Algo.chacha key
      (file.set
        (24 + framePos (sealChunks Algo.chacha key ivs 0 (chunksOf (m * 1048576) input)) j + 4 + o)
        (flipBit
          (file.getD
            (24 + framePos (sealChunks Algo.chacha key ivs 0 (chunksOf (m * 1048576) input)) j + 4 + o)
            0)
          k))
      = .error .AuthFailure := by
  have hover : overhead Algo.chacha = 28 := rfl
  rw [chunkEncryptBytes_eq Algo.chacha key ivs input m hk (by rw [hover]; omega)] at henc
  have hfile : file = headerBytes Algo.chacha (m * 1048576) ++
      ((sealChunks Algo.chacha key ivs 0 (chunksOf (m * 1048576) input)).map
        encodeFrame).flatten := by
    simp only [Except.ok.injEq, Prod.mk.injEq] at henc
    exact henc.1.symm
  subst hfile
  set C := m * 1048576 with hC_def
  set chunks := chunksOf C input with hchunks_def
  set S := sealChunks Algo.chacha key ivs 0 chunks with hS_def
  have hSlen : S.length = chunks.length := length_sealChunks _ _ _ _ _
  have hjS : j < S.length := by omega
  have hSgetD : S.getD j [] = sealA Algo.chacha key (ivs j) (chunks.getD j []) := by
    rw [hS_def]
    have := sealChunks_getD Algo.chacha key ivs chunks 0 j hj
    simpa using this
  have hSget : S.get ⟨j, hjS⟩ = sealA Algo.chacha key (ivs j) (chunks.getD j []) := by
    rw [← hSgetD]
    exact (getD_eq_get S [] j hjS).symm
  have hSjlen : (S.get ⟨j, hjS⟩).length = (chunks.getD j []).length + 28 := by
    rw [hSget]
    exact length_chachaSeal _ _ _
  have hoS : o < (S.get ⟨j, hjS⟩).length := by omega
  have hhlen : (headerBytes Algo.chacha C).length = 24 := length_headerBytes _ _
  -- split the set and the read across the 24-byte header
  have hset : (headerBytes Algo.chacha C ++ (S.map encodeFrame).flatten).set
      (24 + framePos S j + 4 + o) (flipBit ((headerBytes Algo.chacha C ++
        (S.map encodeFrame).flatten).getD (24 + framePos S j + 4 + o) 0) k)
      = headerBytes Algo.chacha C ++ ((S.map encodeFrame).flatten).set
          (framePos S j + 4 + o) (flipBit (((S.map encodeFrame).flatten).getD
            (framePos S j + 4 + o) 0) k) := by
    have hread : (headerBytes Algo.chacha C ++ (S.map encodeFrame).flatten).getD
        (24 + framePos S j + 4 + o) 0
        = ((S.map encodeFrame).flatten).getD (framePos S j + 4 + o) 0 := by
      rw [getD_append_right _ _ _ _ (by rw [hhlen]; omega), hhlen]
      congr 1
      omega
    rw [hread]
    rw [set_append_right _ _ _ _ (by rw [hhlen]; omega), hhlen]
    congr 2
    omega
  rw [hset]
  have hbyte : ((S.map encodeFrame).flatten).getD (framePos S j + 4 + o) 0
      = (S.get ⟨j, hjS⟩).getD o 0 :=
    flatten_encodeFrame_getD S j o hjS hoS
  rw [hbyte]
  rw [flatten_encodeFrame_set S j o _ hjS hoS]
  -- the tampered frame fails to open
  have hopenbad : openA Algo.chacha key
      ((S.get ⟨j, hjS⟩).set o (flipBit ((S.get ⟨j, hjS⟩).getD o 0) k))
      = .error .AuthFailure := by
    rw [hSget]
    show chachaOpen key ((chachaSeal key (ivs j) (chunks.getD j [])).set o
      (flipBit ((chachaSeal key (ivs j) (chunks.getD j [])).getD o 0) k)) = _
    apply chachaOpen_tamper key (ivs j) (chunks.getD j []) o _ ho1 (by omega)
    exact flipBit_ne _ k
  have hopenS : openFrames Algo.chacha key
      (S.set j ((S.get ⟨j, hjS⟩).set o (flipBit ((S.get ⟨j, hjS⟩).getD o 0) k)))
      = .error .AuthFailure := by
    apply openFrames_set_error Algo.chacha key S j _ _ _ hjS hopenbad
    intro s hs
    exact sealChunks_open_ok Algo.chacha key ivs 0 chunks s hs
  have hCpos : 0 < C := by
    rw [hC_def]
    rcases Nat.eq_zero_or_pos m with h0 | hpos
    · exfalso
      rw [hchunks_def, hC_def, h0] at hj
      simp [chunksOf, chunksOfF] at hj
      rcases input with _ | ⟨b, bs⟩
      · simp [chunksOfF] at hj
      · simp [chunksOfF] at hj
    · positivity
  have hlens2 : ∀ s ∈ S.set j ((S.get ⟨j, hjS⟩).set o (flipBit ((S.get ⟨j, hjS⟩).getD o 0) k)),
      s.length < 2 ^ 32 := by
    intro s hs
    have hlens : ∀ s ∈ S, s.length < 2 ^ 32 := by
      rw [hS_def]
      exact sealChunks_mem_length_lt Algo.chacha key ivs C (by rw [hover]; omega) 0 chunks
        (chunksOf_mem_length_le hCpos input)
    rcases List.mem_or_eq_of_mem_set hs with h | h
    · exact hlens s h
    · rw [h, List.length_set]
      exact hlens _ (List.get_mem S _ hjS)
  exact chunkDecryptBytes_container_error Algo.chacha key _ C hk (by omega) hlens2
    .AuthFailure hopenS

/-! ## Filesystem-level helper lemmas -/

theorem encryptFile_eq (algo : Algo) (key rand : Bytes) (inP outP : String)
    (fs : FS) (pt : Bytes) (hin : fs inP = some pt) (hk : key.length = 32) :
    encryptFile algo key rand inP outP fs
      = (.ok ⟨pt.length / 1024⟩, setFS fs outP (some (sealA algo key rand pt))) := by
  unfold encryptFile
  rw [hin]
  simp only [encryptBytes_eq algo key rand pt hk]

theorem decryptFile_of_bytes (algo : Algo) (key : Bytes) (inP outP : String)
    (fs : FS) (ct out : Bytes) (r : DecRes) (hin : fs inP = some ct)
    (h : decryptBytes algo key ct = .ok (out, r)) :
    decryptFile algo key inP outP fs = (.ok r, setFS fs outP (some out)) := by
  unfold decryptFile
  rw [hin]
  simp only [h]

theorem chunkEncryptFile_of_bytes (algo : Algo) (key : Bytes) (ivs : Nat → Bytes)
    (inP outP : String) (m : Nat) (fs : FS) (pt file : Bytes) (r : ChunkEncRes)
    (hin : fs inP = some pt)
    (h : chunkEncryptBytes algo key ivs pt m = .ok (file, r)) :
    chunkEncryptFile algo key ivs inP outP m fs = (.ok r, setFS fs outP (some file)) := by
  unfold chunkEncryptFile
  rw [hin]
  simp only [h]

theorem chunkDecryptFile_of_bytes (algo : Algo) (key : Bytes) (inP outP : String)
    (fs : FS) (ct out : Bytes) (r : ChunkDecRes) (hin : fs inP = some ct)
    (h : chunkDecryptBytes algo key ct = .ok (out, r)) :
    chunkDecryptFile algo key inP outP fs = (.ok r, setFS fs outP (some out)) := by
  unfold chunkDecryptFile
  rw [hin]
  simp only [h]

theorem chunkDecryptFile_of_error (algo : Algo) (key : Bytes) (inP outP : String)
    (fs : FS) (ct : Bytes) (e : Err) (hin : fs inP = some ct)
    (h : chunkDecryptBytes algo key ct = .error e) :
    chunkDecryptFile algo key inP outP fs = (.error e, setFS fs outP none) := by
  unfold chunkDecryptFile
  rw [hin]
  simp only [h]

/-! ## JavaScript surface

Modelled from the example callers in `src/example/index.js` and
`src/chunk_test.js`: the whole-file bindings hand their result record back
directly (the example reads `result.fileSize` without awaiting), while the
chunked bindings hand back promises (the example awaits them); a failing
whole-file call throws, a failing chunked call rejects its promise. -/

/-- A JavaScript value as observed by the example callers: a number, a
record of numeric fields, a promise resolving to such a record, a rejected
promise, a thrown error, or `undefined`. -/
inductive JsVal : Type
  | num (n : Nat)
  | obj (fields : List (String × Nat))
  | promiseObj (fields : List (String × Nat))
  | rejected (e : Err)
  | exn (e : Err)
  | undefined
  deriving DecidableEq, Repr

/-- Whether a value is a promise (pending record or rejection). -/
def isPromise : JsVal → Bool
  | .promiseObj _ => true
  | .rejected _ => true
  | _ => false

/-- `await v`: unwrap a resolved promise, otherwise the value itself. -/
def awaitJs : JsVal → JsVal
  | .promiseObj f => .obj f
  | v => v

/-- Property access `v.f`: a number on a record field, `undefined` otherwise
(in particular on a promise that was not awaited). -/
def getField : JsVal → String → JsVal
  | .obj fields, f =>
    match fields.lookup f with
    | some n => .num n
    | none => .undefined
  | _, _ => .undefined

/-- The field names of a record (or of the record a promise resolves to). -/
def fieldNames : JsVal → List String
  | .obj fields => fields.map Prod.fst
  | .promiseObj fields => fields.map Prod.fst
  | _ => []

/-- JS object of `encryptFile` (read as `result.fileSize` by the example). -/
def encResJs (r : EncRes) : List (String × Nat) :=
  [("fileSize", r.fileSize)]

/-- JS object of `decryptFile` (read as `result.fileSize`,
`result.encryptedSize` by the example). -/
def decResJs (r : DecRes) : List (String × Nat) :=
  [("fileSize", r.fileSize), ("encryptedSize", r.encryptedSize)]

/-- JS object of `chunkEncryptFile` (read as `result.fileSize`,
`result.chunkSize`, `result.totalChunks` by the example). -/
def chunkEncResJs (r : ChunkEncRes) : List (String × Nat) :=
  [("fileSize", r.fileSize), ("chunkSize", r.chunkSize), ("totalChunks", r.totalChunks)]

/-- JS object of `chunkDecryptFile` (read as `result.originalSizeKB`,
`result.totalBytesKB`, `result.chunkSizeKB`, `result.totalChunks` by the
example caller `largetDecryptFile`). -/
def chunkDecResJs (r : ChunkDecRes) : List (String × Nat) :=
  [("originalSizeKB", r.originalSizeKB), ("totalBytesKB", r.totalBytesKB),
    ("chunkSizeKB", r.chunkSizeKB), ("totalChunks", r.totalChunks)]

/-- The `encryptFile` binding at the JS surface: returns its record directly. -/
def encryptFileJs (algo : Algo) (key rand : Bytes) (inPath outPath : String)
    (fs : FS) : JsVal × FS :=
  match encryptFile algo key rand inPath outPath fs with
  | (.ok r, fs2) => (.obj (encResJs r), fs2)
  | (.error e, fs2) => (.exn e, fs2)

/-- The `decryptFile` binding at the JS surface: returns its record directly. -/
def decryptFileJs (algo : Algo) (key : Bytes) (inPath outPath : String)
    (fs : FS) : JsVal × FS :=
  match decryptFile algo key inPath outPath fs with
  | (.ok r, fs2) => (.obj (decResJs r), fs2)
  | (.error e, fs2) => (.exn e, fs2)

/-- The `chunkEncryptFile` binding at the JS surface: returns a promise. -/
def chunkEncryptFileJs (algo : Algo) (key : Bytes) (ivs : Nat → Bytes)
    (inPath outPath : String) (chunkSizeMiB : Nat) (fs : FS) : JsVal × FS :=
  match chunkEncryptFile algo key ivs inPath outPath chunkSizeMiB fs with
  | (.ok r, fs2) => (.promiseObj (chunkEncResJs r), fs2)
  | (.error e, fs2) => (.rejected e, fs2)

/-- The `chunkDecryptFile` binding at the JS surface: returns a promise. -/
def chunkDecryptFileJs (algo : Algo) (key : Bytes) (inPath outPath : String)
    (fs : FS) : JsVal × FS :=
  match chunkDecryptFile algo key inPath outPath fs with
  | (.ok r, fs2) => (.promiseObj (chunkDecResJs r), fs2)
  | (.error e, fs2) => (.rejected e, fs2)

/-! ## Claim theorems -/

/-- C1: for every algorithm (`aes`, `chacha20poly1305`), every 32-byte key,
every chunk size and every plaintext, decrypting the encryption of the
plaintext returns the plaintext byte-for-byte, on the whole-file path
(`decryptFile` after `encryptFile`) and on the streaming path
(`chunkDecryptFile` after `chunkEncryptFile`); stated for all plaintexts,
which subsumes the boundary sizes 0, 1, chunkSize−1, chunkSize,
chunkSize+1, 3·chunkSize, 3·chunkSize+r. -/
theorem C1_round_trip (algo : Algo) (key rand : Bytes) (ivs : Nat → Bytes)
    (pt : Bytes) (m : Nat) (inP outP outP2 : String) (fs : FS)
    (hk : key.length = 32) (hm : 0 < m)
    (hg : m * 1048576 + overhead algo ≤ 4294967295)
    (hin : fs inP = some pt) :
    (∀ ct r, encryptBytes algo key rand pt = .ok (ct, r) →
      decryptBytes algo key ct = .ok (pt, ⟨pt.length / 1024, ct.length / 1024⟩)) ∧
    (decryptFile algo key outP outP2 (encryptFile algo key rand inP outP fs).2).2 outP2
      = some pt ∧
    (∀ file r, chunkEncryptBytes algo key ivs pt m = .ok (file, r) →
      chunkDecryptBytes algo key file
        = .ok (pt, ⟨pt.length / 1024, file.length / 1024, m * 1048576 / 1024,
            (chunksOf (m * 1048576) pt).length⟩)) ∧
    (chunkDecryptFile algo key outP outP2
      (chunkEncryptFile algo key ivs inP outP m fs).2).2 outP2 = some pt := by
  refine ⟨?_, ?_, ?_, ?_⟩
  · intro ct r henc
    exact decryptBytes_encryptBytes algo key rand pt hk ct r henc
  · have hseal := decryptBytes_encryptBytes algo key rand pt hk (sealA algo key rand pt)
      ⟨pt.length / 1024⟩ (encryptBytes_eq algo key rand pt hk)
    rw [encryptFile_eq algo key rand inP outP fs pt hin hk]
    rw [decryptFile_of_bytes algo key outP outP2 _ (sealA algo key rand pt) pt _
      (setFS_same fs outP _) hseal]
    exact setFS_same _ outP2 _
  · intro file r henc
    exact chunkDecryptBytes_chunkEncryptBytes algo key ivs pt m hk hm hg file r henc
  · have hdec := chunkDecryptBytes_chunkEncryptBytes algo key ivs pt m hk hm hg _ _
      (chunkEncryptBytes_eq algo key ivs pt m hk hg)
    rw [chunkEncryptFile_of_bytes algo key ivs inP outP m fs pt _ _ hin
      (chunkEncryptBytes_eq algo key ivs pt m hk hg)]
    rw [chunkDecryptFile_of_bytes algo key outP outP2 _ _ pt _
      (setFS_same fs outP _) hdec]
    exact setFS_same _ outP2 _

/-- Witness for C1: a concrete AES round trip through the streaming path
restores the 3-byte plaintext. -/
theorem C1_round_trip_witness :
    (List.replicate 32 (0 : Byte)).length = 32 ∧
    ((chunkDecryptFile Algo.aes (List.replicate 32 0) "enc" "dec"
      (chunkEncryptFile Algo.aes (List.replicate 32 0) (fun _ => List.replicate 16 1)
        "in" "enc" 1
        (fun p => if p = "in" then some [10, 20, 30] else none)).2).2) "dec"
      = some [10, 20, 30] :=
  ⟨by decide,
    (C1_round_trip Algo.aes (List.replicate 32 0) (List.replicate 16 1)
      (fun _ => List.replicate 16 1) [10, 20, 30] 1 "in" "enc" "dec"
      (fun p => if p = "in" then some [10, 20, 30] else none)
      (by decide) (by decide) (by decide) (by decide)).2.2.2⟩

/-- C2: for ChaCha20-Poly1305 streaming containers, flipping any single bit
of any frame's ciphertext or tag (byte offset `≥ 12` inside the frame's
sealed payload, i.e. past the nonce) makes `chunkDecryptFile` fail with
`AuthFailure`, and afterwards no file remains at the output path. -/
theorem C2_tamper_detect (key : Bytes) (ivs : Nat → Bytes) (input : Bytes)
    (m j o k : Nat) (inP outP : String) (fs : FS) (file : Bytes) (r : ChunkEncRes)
    (hk : key.length = 32) (hg : m * 1048576 + 28 ≤ 4294967295)
    (henc : chunkEncryptBytes Algo.chacha key ivs input m = .ok (file, r))
    (hj : j < (chunksOf (m * 1048576) input).length)
    (ho1 : 12 ≤ o)
    (ho2 : o < ((chunksOf (m * 1048576) input).getD j []).length + 28)
    (hin : fs inP = some (file.set
      (24 + framePos (sealChunks Algo.chacha key ivs 0 (chunksOf (m * 1048576) input)) j + 4 + o)
      (flipBit (file.getD
        (24 + framePos (sealChunks Algo.chacha key ivs 0 (chunksOf (m * 1048576) input)) j + 4 + o)
        0) k))) :
    chunkDecryptBytes Algo.chacha key (file.set
      (24 + framePos (sealChunks Algo.chacha key ivs 0 (chunksOf (m * 1048576) input)) j + 4 + o)
      (flipBit (file.getD
        (24 + framePos (sealChunks Algo.chacha key ivs 0 (chunksOf (m * 1048576) input)) j + 4 + o)
        0) k)) = .error .AuthFailure ∧
    (chunkDecryptFile Algo.chacha key inP outP fs).1 = .error .AuthFailure ∧
    (chunkDecryptFile Algo.chacha key inP outP fs).2 outP = none := by
  have h1 := chunkDecryptBytes_tamper key ivs input m j o k hk hg file r henc hj ho1 ho2
  have h2 := chunkDecryptFile_of_error Algo.chacha key inP outP fs _ .AuthFailure hin h1
  refine ⟨h1, ?_, ?_⟩
  · rw [h2]
  · rw [h2]
    exact setFS_same _ outP _

/-- Concrete container for the C2 witness: ChaCha, 1 MiB chunks, 3-byte
plaintext, all-zero key. -/
def wFileC2 : Bytes :=
  headerBytes Algo.chacha (1 * 1048576) ++
    ((sealChunks Algo.chacha (List.replicate 32 0) (fun _ => List.replicate 12 3) 0
      (chunksOf (1 * 1048576) [1, 2, 3])).map encodeFrame).flatten

/-- Byte offset of the first ciphertext byte of frame 0 in `wFileC2`. -/
def wPosC2 : Nat :=
  24 + framePos (sealChunks Algo.chacha (List.replicate 32 0) (fun _ => List.replicate 12 3) 0
    (chunksOf (1 * 1048576) [1, 2, 3])) 0 + 4 + 12

/-- `wFileC2` with one bit of its first ciphertext byte flipped. -/
def wTamperedC2 : Bytes := wFileC2.set wPosC2 (flipBit (wFileC2.getD wPosC2 0) 0)

/-- Witness for C2: the concrete tampered container fails with `AuthFailure`
and leaves no output file. -/
theorem C2_tamper_detect_witness :
    (List.replicate 32 (0 : Byte)).length = 32 ∧
    chunkDecryptBytes Algo.chacha (List.replicate 32 0) wTamperedC2 = .error .AuthFailure ∧
    ((chunkDecryptFile Algo.chacha (List.replicate 32 0) "e" "d"
      (setFS (fun _ => none) "e" (some wTamperedC2))).2) "d" = none := by
  have h := C2_tamper_detect (List.replicate 32 0) (fun _ => List.replicate 12 3)
    [1, 2, 3] 1 0 12 0 "e" "d" (setFS (fun _ => none) "e" (some wTamperedC2))
    wFileC2 ⟨3 / 1024, 1 * 1048576 / 1024, (chunksOf (1 * 1048576) [1, 2, 3]).length⟩
    (by decide) (by decide)
    (chunkEncryptBytes_eq Algo.chacha (List.replicate 32 0)
      (fun _ => List.replicate 12 3) [1, 2, 3] 1 (by decide) (by decide))
    (by decide) (by decide) (by decide) rfl
  exact ⟨by decide, h.1, h.2.2⟩

/-- C3: on streaming decryption, header validation raises exactly the
matching error: magic mismatch ⇒ `NotAContainer`; unknown version ⇒
`UnsupportedVersion`; unknown algorithm id ⇒ `UnknownAlgorithm`; nonzero
flags ⇒ `UnsupportedFlags`; requested algorithm differing from the header's
⇒ `AlgorithmMismatch` — checked in that order. -/
theorem C3_header_errors (algo : Algo) (key file : Bytes) (hk : key.length = 32) :
    (file.take 8 ≠ MAGIC → chunkDecryptBytes algo key file = .error .NotAContainer) ∧
    (file.take 8 = MAGIC → fromLE ((file.drop 8).take 2) ≠ 1 →
      chunkDecryptBytes algo key file = .error .UnsupportedVersion) ∧
    (file.take 8 = MAGIC → fromLE ((file.drop 8).take 2) = 1 →
      codeToAlgo (fromLE ((file.drop 10).take 2)) = none →
      chunkDecryptBytes algo key file = .error .UnknownAlgorithm) ∧
    (∀ halgo, file.take 8 = MAGIC → fromLE ((file.drop 8).take 2) = 1 →
      codeToAlgo (fromLE ((file.drop 10).take 2)) = some halgo →
      fromLE ((file.drop 12).take 4) ≠ 0 →
      chunkDecryptBytes algo key file = .error .UnsupportedFlags) ∧
    (∀ halgo, file.take 8 = MAGIC → fromLE ((file.drop 8).take 2) = 1 →
      codeToAlgo (fromLE ((file.drop 10).take 2)) = some halgo →
      fromLE ((file.drop 12).take 4) = 0 → halgo ≠ algo →
      chunkDecryptBytes algo key file = .error .AlgorithmMismatch) := by
  refine ⟨?_, ?_, ?_, ?_, ?_⟩
  · intro h1
    unfold chunkDecryptBytes
    rw [if_neg (by omega), if_pos h1]
  · intro h1 h2
    unfold chunkDecryptBytes
    rw [if_neg (by omega), if_neg (by simp [h1]), if_pos h2]
  · intro h1 h2 h3
    unfold chunkDecryptBytes
    rw [if_neg (by omega), if_neg (by simp [h1]), if_neg (by simp [h2])]
    simp only [h3]
  · intro halgo h1 h2 h3 h4
    unfold chunkDecryptBytes
    rw [if_neg (by omega), if_neg (by simp [h1]), if_neg (by simp [h2])]
    simp only [h3]
    rw [if_pos h4]
  · intro halgo h1 h2 h3 h4 h5
    unfold chunkDecryptBytes
    rw [if_neg (by omega), if_neg (by simp [h1]), if_neg (by simp [h2])]
    simp only [h3]
    rw [if_neg (by simp [h4]), if_pos h5]

/-- Witness for C3: each of the five corruptions on a concrete header
produces its matching error. -/
theorem C3_header_errors_witness :
    chunkDecryptBytes Algo.aes (List.replicate 32 0) (List.replicate 24 0)
      = .error .NotAContainer ∧
    chunkDecryptBytes Algo.aes (List.replicate 32 0)
      (MAGIC ++ toLE 2 9 ++ toLE 2 2 ++ toLE 4 0 ++ toLE 8 0)
      = .error .UnsupportedVersion ∧
    chunkDecryptBytes Algo.aes (List.replicate 32 0)
      (MAGIC ++ toLE 2 1 ++ toLE 2 7 ++ toLE 4 0 ++ toLE 8 0)
      = .error .UnknownAlgorithm ∧
    chunkDecryptBytes Algo.aes (List.replicate 32 0)
      (MAGIC ++ toLE 2 1 ++ toLE 2 2 ++ toLE 4 5 ++ toLE 8 0)
      = .error .UnsupportedFlags ∧
    chunkDecryptBytes Algo.aes (List.replicate 32 0) (headerBytes Algo.chacha 1048576)
      = .error .AlgorithmMismatch := by
  refine ⟨?_, ?_, ?_, ?_, ?_⟩
  · exact (C3_header_errors Algo.aes (List.replicate 32 0) (List.replicate 24 0)
      (by decide)).1 (by decide)
  · exact (C3_header_errors Algo.aes (List.replicate 32 0)
      (MAGIC ++ toLE 2 9 ++ toLE 2 2 ++ toLE 4 0 ++ toLE 8 0) (by decide)).2.1
      (by decide) (by decide)
  · exact (C3_header_errors Algo.aes (List.replicate 32 0)
      (MAGIC ++ toLE 2 1 ++ toLE 2 7 ++ toLE 4 0 ++ toLE 8 0) (by decide)).2.2.1
      (by decide) (by decide) (by decide)
  · exact (C3_header_errors Algo.aes (List.replicate 32 0)
      (MAGIC ++ toLE 2 1 ++ toLE 2 2 ++ toLE 4 5 ++ toLE 8 0) (by decide)).2.2.2.1
      Algo.chacha (by decide) (by decide) (by decide) (by decide)
  · exact (C3_header_errors Algo.aes (List.replicate 32 0)
      (headerBytes Algo.chacha 1048576) (by decide)).2.2.2.2
      Algo.chacha (by decide) (by decide) (by decide) (by decide) (by decide)

theorem sealChunks_chacha_lens (key : Bytes) (ivs : Nat → Bytes) :
    ∀ (j : Nat) (cs : List Bytes),
      (sealChunks Algo.chacha key ivs j cs).map List.length
        = cs.map (fun c => 12 + c.length + 16) := by
  intro j cs
  induction cs generalizing j with
  | nil => rfl
  | cons c cs ih =>
    simp only [sealChunks, List.map_cons, ih]
    congr 1
    show (chachaSeal key (ivs j) c).length = 12 + c.length + 16
    rw [length_chachaSeal]
    omega

/-- C4: for an `N`-byte input and chunk size `C = chunkSizeMiB × 1,048,576`,
the streaming encryptor writes exactly the 24-byte header followed by
`⌈N/C⌉` frames in input order, each sealing `min(C, remaining)` plaintext
bytes; `totalChunks = ⌈N/C⌉`; an empty input gives a header-only file; and
for 2,621,440 ChaCha bytes at 1 MiB chunks the three frame payloads have
lengths `12+1048576+16`, `12+1048576+16`, `12+524288+16`. -/
theorem C4_frame_structure (algo : Algo) (key : Bytes) (ivs : Nat → Bytes)
    (input : Bytes) (m : Nat) (file : Bytes) (r : ChunkEncRes)
    (hk : key.length = 32) (hm : 0 < m)
    (hg : m * 1048576 + overhead algo ≤ 4294967295)
    (henc : chunkEncryptBytes algo key ivs input m = .ok (file, r)) :
    file = headerBytes algo (m * 1048576) ++
      ((sealChunks algo key ivs 0 (chunksOf (m * 1048576) input)).map encodeFrame).flatten ∧
    (chunksOf (m * 1048576) input).flatten = input ∧
    (chunksOf (m * 1048576) input).map List.length = chunkLens (m * 1048576) input.length ∧
    r.totalChunks = (chunksOf (m * 1048576) input).length ∧
    r.totalChunks = (input.length + m * 1048576 - 1) / (m * 1048576) ∧
    (input = [] → file = headerBytes algo (m * 1048576)) ∧
    (algo = Algo.chacha →
      (sealChunks Algo.chacha key ivs 0 (chunksOf (m * 1048576) input)).map List.length
        = (chunksOf (m * 1048576) input).map (fun c => 12 + c.length + 16)) ∧
    (algo = Algo.chacha → m = 1 → input.length = 2621440 →
      (sealChunks Algo.chacha key ivs 0 (chunksOf (m * 1048576) input)).map List.length
        = [12 + 1048576 + 16, 12 + 1048576 + 16, 12 + 524288 + 16]) := by
  have hCpos : 0 < m * 1048576 := by positivity
  rw [chunkEncryptBytes_eq algo key ivs input m hk hg] at henc
  have hpair : file = headerBytes algo (m * 1048576) ++
      ((sealChunks algo key ivs 0 (chunksOf (m * 1048576) input)).map encodeFrame).flatten ∧
      r = ⟨input.length / 1024, m * 1048576 / 1024,
        (chunksOf (m * 1048576) input).length⟩ := by
    simp only [Except.ok.injEq, Prod.mk.injEq] at henc
    exact ⟨henc.1.symm, henc.2.symm⟩
  obtain ⟨hfile, hr⟩ := hpair
  have hcount : (chunksOf (m * 1048576) input).length
      = (input.length + m * 1048576 - 1) / (m * 1048576) := by
    have h1 : (chunksOf (m * 1048576) input).length
        = ((chunksOf (m * 1048576) input).map List.length).length := by
      rw [List.length_map]
    rw [h1, chunksOf_lens hCpos]
    exact chunkLensF_length hCpos input.length input.length (Nat.le_refl _)
  refine ⟨hfile, chunksOf_flatten hCpos input, chunksOf_lens hCpos input,
    by rw [hr], by rw [hr]; exact hcount, ?_, ?_, ?_⟩
  · intro hempty
    subst hempty
    rw [hfile]
    have hnil : chunksOf (m * 1048576) ([] : Bytes) = [] := rfl
    rw [hnil]
    show headerBytes algo (m * 1048576) ++
      ((sealChunks algo key ivs 0 []).map encodeFrame).flatten = _
    show headerBytes algo (m * 1048576) ++ (([] : List Bytes).map encodeFrame).flatten = _
    simp
  · intro hch
    subst hch
    exact sealChunks_chacha_lens key ivs 0 (chunksOf (m * 1048576) input)
  · intro hch hm1 hlen2
    subst hch
    subst hm1
    rw [sealChunks_chacha_lens key ivs 0]
    have h1 : (chunksOf (1 * 1048576) input).map (fun c => 12 + c.length + 16)
        = ((chunksOf (1 * 1048576) input).map List.length).map
            (fun c => 12 + c + 16) := by
      rw [List.map_map]
      rfl
    rw [h1, chunksOf_lens (by omega), hlen2]
    decide

/-- Witness for C4: a concrete 3-byte ChaCha container has one chunk that
is the whole input and `totalChunks = ⌈3 / 1MiB⌉ = 1`. -/
theorem C4_frame_structure_witness :
    (List.replicate 32 (0 : Byte)).length = 32 ∧
    (chunksOf (1 * 1048576) ([1, 2, 3] : Bytes)).flatten = [1, 2, 3] ∧
    (ChunkEncRes.mk (([1, 2, 3] : Bytes).length / 1024) (1 * 1048576 / 1024)
        ((chunksOf (1 * 1048576) ([1, 2, 3] : Bytes)).length)).totalChunks
      = (([1, 2, 3] : Bytes).length + 1 * 1048576 - 1) / (1 * 1048576) := by
  have h := C4_frame_structure Algo.chacha (List.replicate 32 0)
    (fun _ => List.replicate 12 3) [1, 2, 3] 1 wFileC2
    ⟨([1, 2, 3] : Bytes).length / 1024, 1 * 1048576 / 1024,
      (chunksOf (1 * 1048576) ([1, 2, 3] : Bytes)).length⟩
    (by decide) (by decide) (by decide)
    (chunkEncryptBytes_eq Algo.chacha (List.replicate 32 0)
      (fun _ => List.replicate 12 3) [1, 2, 3] 1 (by decide) (by decide))
  exact ⟨by decide, h.2.1, h.2.2.2.2.1⟩

/-- C5: the whole-file encryptor's output is exactly one `sealed_bytes`
blob — no container header, no length prefix — so an `n`-byte plaintext
yields `16 + 16·(⌊n/16⌋+1)` bytes under AES-256-CBC (32 bytes for `n = 12`)
and `n + 28` bytes under ChaCha20-Poly1305 (28 bytes for `n = 0`). -/
theorem C5_wholefile_layout (algo : Algo) (key rand pt : Bytes) (hk : key.length = 32)
    (ct : Bytes) (r : EncRes) (henc : encryptBytes algo key rand pt = .ok (ct, r)) :
    ct = sealA algo key rand pt ∧
    (algo = Algo.aes → ct.length = 16 + 16 * (pt.length / 16 + 1)) ∧
    (algo = Algo.chacha → ct.length = pt.length + 28) ∧
    (algo = Algo.aes → pt.length = 12 → ct.length = 32) ∧
    (algo = Algo.chacha → pt.length = 0 → ct.length = 28) := by
  rw [encryptBytes_eq algo key rand pt hk] at henc
  have hct : ct = sealA algo key rand pt := by
    simp only [Except.ok.injEq, Prod.mk.injEq] at henc
    exact henc.1.symm
  subst hct
  refine ⟨rfl, ?_, ?_, ?_, ?_⟩
  · intro hch
    subst hch
    exact length_aesSeal key rand pt
  · intro hch
    subst hch
    exact length_chachaSeal key rand pt
  · intro hch hl
    subst hch
    show (aesSeal key rand pt).length = 32
    rw [length_aesSeal key rand pt, hl]
  · intro hch hl
    subst hch
    show (chachaSeal key rand pt).length = 28
    rw [length_chachaSeal key rand pt, hl]

/-- Witness for C5: a concrete 12-byte AES whole-file sealing is exactly
32 bytes long. -/
theorem C5_wholefile_layout_witness :
    (List.replicate 32 (0 : Byte)).length = 32 ∧
    (sealA Algo.aes (List.replicate 32 0) (List.replicate 16 1)
      (List.replicate 12 7)).length = 32 :=
  ⟨by decide,
    (C5_wholefile_layout Algo.aes (List.replicate 32 0) (List.replicate 16 1)
      (List.replicate 12 7) (by decide)
      (sealA Algo.aes (List.replicate 32 0) (List.replicate 16 1) (List.replicate 12 7))
      ⟨(List.replicate 12 (7 : Byte)).length / 1024⟩
      (encryptBytes_eq Algo.aes (List.replicate 32 0) (List.replicate 16 1)
        (List.replicate 12 7) (by decide))).2.2.2.1 rfl (by decide)⟩

/-- C6: frame decoding reads a 4-byte little-endian length and then exactly
that many payload bytes; EOF while reading the length prefix terminates the
decode loop cleanly with no error, while EOF inside the payload raises
`TruncatedFrame`. -/
theorem C6_frame_decode :
    (∀ bs : Bytes, bs.length < 4 → decodeFrames bs = .ok []) ∧
    (∀ bs : Bytes, 4 ≤ bs.length → (bs.drop 4).length < fromLE (bs.take 4) →
      decodeFrames bs = .error .TruncatedFrame) ∧
    (∀ s rest : Bytes, s.length < 2 ^ 32 →
      decodeFrames (encodeFrame s ++ rest)
        = match decodeFrames rest with
          | .error e => .error e
          | .ok frames => .ok (s :: frames)) :=
  ⟨fun _ h => decodeFramesF_short h,
    fun bs h4 hshort => decodeFrames_truncated bs h4 hshort,
    fun s rest hs => decodeFrames_cons s rest hs⟩

/-- Witness for C6: a 2-byte stream ends cleanly, a frame announcing 9
payload bytes with only 1 present is `TruncatedFrame`, and a well-formed
1-byte frame decodes to its payload. -/
theorem C6_frame_decode_witness :
    decodeFrames [1, 2] = .ok [] ∧
    decodeFrames [9, 0, 0, 0, 5] = .error .TruncatedFrame ∧
    decodeFrames (encodeFrame [7] ++ []) = .ok [[7]] :=
  ⟨C6_frame_decode.1 [1, 2] (by decide),
    C6_frame_decode.2.1 [9, 0, 0, 0, 5] (by decide) (by decide),
    C6_frame_decode.2.2 [7] [] (by decide)⟩

/-- C7: every seal call uses the freshly sampled IV (AES, 16 bytes) or
nonce (ChaCha, 12 bytes) verbatim as the head of `sealed_bytes`, so two
seal runs of the same `(algo, key, plaintext)` with distinct sampled
values produce distinct ciphertexts. -/
theorem C7_iv_freshness (algo : Algo) (key r1 r2 pt : Bytes)
    (h1 : r1.length = randLen algo) (h2 : r2.length = randLen algo) (hne : r1 ≠ r2) :
    sealA algo key r1 pt ≠ sealA algo key r2 pt := by
  intro h
  apply hne
  have h3 := congrArg (fun l => List.take (randLen algo) l) h
  simp only at h3
  rwa [take_randLen_sealA algo key r1 pt h1, take_randLen_sealA algo key r2 pt h2] at h3

/-- Witness for C7: two concrete ChaCha seals of the same plaintext under
the same key but distinct nonces differ. -/
theorem C7_iv_freshness_witness :
    (List.replicate 12 (0 : Byte)).length = randLen Algo.chacha ∧
    sealA Algo.chacha (List.replicate 32 0) (List.replicate 12 0) [1, 2]
      ≠ sealA Algo.chacha (List.replicate 32 0) (List.replicate 12 1) [1, 2] :=
  ⟨by decide,
    C7_iv_freshness Algo.chacha (List.replicate 32 0) (List.replicate 12 0)
      (List.replicate 12 1) [1, 2] (by decide) (by decide) (by decide)⟩

/-- C8 counterexample: on a concrete successful streaming decryption, the
record the promise resolves to does not carry the fields
`originalSize`, `totalBytes`, `chunkSize`, `totalChunks` — the example
caller reads `originalSizeKB`, `totalBytesKB`, `chunkSizeKB`,
`totalChunks` instead. -/
theorem C8_fields_counterexample :
    fieldNames (awaitJs (chunkDecryptFileJs Algo.chacha (List.replicate 32 0) "e" "d"
      (setFS (fun _ => none) "e" (some wFileC2))).1)
      ≠ ["originalSize", "totalBytes", "chunkSize", "totalChunks"] := by
  have hdec := chunkDecryptBytes_chunkEncryptBytes Algo.chacha (List.replicate 32 0)
    (fun _ => List.replicate 12 3) [1, 2, 3] 1 (by decide) (by decide) (by decide)
    wFileC2 ⟨([1, 2, 3] : Bytes).length / 1024, 1 * 1048576 / 1024,
      (chunksOf (1 * 1048576) ([1, 2, 3] : Bytes)).length⟩
    (chunkEncryptBytes_eq Algo.chacha (List.replicate 32 0)
      (fun _ => List.replicate 12 3) [1, 2, 3] 1 (by decide) (by decide))
  have h2 := chunkDecryptFile_of_bytes Algo.chacha (List.replicate 32 0) "e" "d"
    (setFS (fun _ => none) "e" (some wFileC2)) wFileC2 [1, 2, 3] _ rfl hdec
  have h3 : chunkDecryptFileJs Algo.chacha (List.replicate 32 0) "e" "d"
      (setFS (fun _ => none) "e" (some wFileC2))
      = (.promiseObj (chunkDecResJs
          ⟨([1, 2, 3] : Bytes).length / 1024, wFileC2.length / 1024,
            1 * 1048576 / 1024, (chunksOf (1 * 1048576) ([1, 2, 3] : Bytes)).length⟩),
        setFS (setFS (fun _ => none) "e" (some wFileC2)) "d" (some [1, 2, 3])) := by
    unfold chunkDecryptFileJs
    rw [h2]
  rw [h3]
  decide

/-- C8 (amended): on a successful streaming decryption the result record
carries exactly the fields `originalSizeKB`, `totalBytesKB`, `chunkSizeKB`
and `totalChunks`, with the size fields in kilobytes (bytes divided by
1024, truncated): plaintext bytes, container bytes read, and header chunk
size respectively. -/
theorem C8_result_fields (algo : Algo) (key : Bytes) (ivs : Nat → Bytes)
    (input : Bytes) (m : Nat) (inP outP : String) (fs : FS) (file : Bytes)
    (r : ChunkEncRes) (hk : key.length = 32) (hm : 0 < m)
    (hg : m * 1048576 + overhead algo ≤ 4294967295)
    (henc : chunkEncryptBytes algo key ivs input m = .ok (file, r))
    (hin : fs inP = some file) :
    (chunkDecryptFile algo key inP outP fs).1
      = .ok ⟨input.length / 1024, file.length / 1024, m * 1048576 / 1024,
          (chunksOf (m * 1048576) input).length⟩ ∧
    fieldNames (awaitJs (chunkDecryptFileJs algo key inP outP fs).1)
      = ["originalSizeKB", "totalBytesKB", "chunkSizeKB", "totalChunks"] := by
  have hdec := chunkDecryptBytes_chunkEncryptBytes algo key ivs input m hk hm hg
    file r henc
  have h2 := chunkDecryptFile_of_bytes algo key inP outP fs file input _ hin hdec
  constructor
  · rw [h2]
  · unfold chunkDecryptFileJs
    rw [h2]
    rfl

/-- Witness for C8 (amended): the concrete decryption's resolved record has
exactly the KB-suffixed field names. -/
theorem C8_result_fields_witness :
    (List.replicate 32 (0 : Byte)).length = 32 ∧
    fieldNames (awaitJs (chunkDecryptFileJs Algo.chacha (List.replicate 32 0) "e" "d"
      (setFS (fun _ => none) "e" (some wFileC2))).1)
      = ["originalSizeKB", "totalBytesKB", "chunkSizeKB", "totalChunks"] :=
  ⟨by decide,
    (C8_result_fields Algo.chacha (List.replicate 32 0) (fun _ => List.replicate 12 3)
      [1, 2, 3] 1 "e" "d" (setFS (fun _ => none) "e" (some wFileC2)) wFileC2
      ⟨([1, 2, 3] : Bytes).length / 1024, 1 * 1048576 / 1024,
        (chunksOf (1 * 1048576) ([1, 2, 3] : Bytes)).length⟩
      (by decide) (by decide) (by decide)
      (chunkEncryptBytes_eq Algo.chacha (List.replicate 32 0)
        (fun _ => List.replicate 12 3) [1, 2, 3] 1 (by decide) (by decide))
      rfl).2⟩

/-- C9: `getFileSize(path)` returns the file's size in bytes as reported by
the filesystem (not a kilobyte value), and raises `IoError` when the
filesystem query fails. -/
theorem C9_getFileSize_bytes :
    (∀ (fs : FS) (p : String) (c : Bytes), fs p = some c →
      getFileSize fs p = .ok c.length) ∧
    (∀ (fs : FS) (p : String), fs p = none → getFileSize fs p = .error .IoError) := by
  constructor
  · intro fs p c h
    unfold getFileSize
    rw [h]
  · intro fs p h
    unfold getFileSize
    rw [h]

/-- Witness for C9: a 2500-byte file reports 2500 (bytes, not 2 KB), and a
missing file reports `IoError`. -/
theorem C9_getFileSize_bytes_witness :
    getFileSize (setFS (fun _ => none) "f" (some (List.replicate 2500 0))) "f"
      = .ok 2500 ∧
    getFileSize (fun _ => none) "g" = .error .IoError :=
  ⟨by
    have h := C9_getFileSize_bytes.1
      (setFS (fun _ => none) "f" (some (List.replicate 2500 0))) "f"
      (List.replicate 2500 0) rfl
    rwa [List.length_replicate] at h,
    C9_getFileSize_bytes.2 (fun _ => none) "g" rfl⟩

/-- C10: at the public JavaScript interface, the whole-file operations hand
their result records back synchronously (the caller reads `result.fileSize`
directly, without awaiting), whereas the streaming operations return
promises whose resolution yields the result record. -/
theorem C10_sync_async (algo : Algo) (key rand : Bytes) (ivs : Nat → Bytes)
    (inP outP : String) (m : Nat) (fs : FS) :
    isPromise (encryptFileJs algo key rand inP outP fs).1 = false ∧
    isPromise (decryptFileJs algo key inP outP fs).1 = false ∧
    isPromise (chunkEncryptFileJs algo key ivs inP outP m fs).1 = true ∧
    isPromise (chunkDecryptFileJs algo key inP outP fs).1 = true ∧
    (∀ r, (encryptFile algo key rand inP outP fs).1 = .ok r →
      getField ((encryptFileJs algo key rand inP outP fs).1) "fileSize"
        = .num r.fileSize) ∧
    (∀ r, (chunkDecryptFile algo key inP outP fs).1 = .ok r →
      awaitJs (chunkDecryptFileJs algo key inP outP fs).1
        = .obj (chunkDecResJs r)) := by
  refine ⟨?_, ?_, ?_, ?_, ?_, ?_⟩
  · rcases hres : encryptFile algo key rand inP outP fs with ⟨res, fs2⟩
    unfold encryptFileJs
    rw [hres]
    cases res with
    | ok r => rfl
    | error e => rfl
  · rcases hres : decryptFile algo key inP outP fs with ⟨res, fs2⟩
    unfold decryptFileJs
    rw [hres]
    cases res with
    | ok r => rfl
    | error e => rfl
  · rcases hres : chunkEncryptFile algo key ivs inP outP m fs with ⟨res, fs2⟩
    unfold chunkEncryptFileJs
    rw [hres]
    cases res with
    | ok r => rfl
    | error e => rfl
  · rcases hres : chunkDecryptFile algo key inP outP fs with ⟨res, fs2⟩
    unfold chunkDecryptFileJs
    rw [hres]
    cases res with
    | ok r => rfl
    | error e => rfl
  · intro r hr
    rcases hres : encryptFile algo key rand inP outP fs with ⟨res, fs2⟩
    rw [hres] at hr
    simp only at hr
    subst hr
    unfold encryptFileJs
    rw [hres]
    rfl
  · intro r hr
    rcases hres : chunkDecryptFile algo key inP outP fs with ⟨res, fs2⟩
    rw [hres] at hr
    simp only at hr
    subst hr
    unfold chunkDecryptFileJs
    rw [hres]
    rfl

/-- Witness for C10: a concrete streaming call is a promise, and a concrete
whole-file call's record is read synchronously as `result.fileSize`. -/
theorem C10_sync_async_witness :
    isPromise (chunkDecryptFileJs Algo.aes (List.replicate 32 0) "x" "y"
      (fun _ => none)).1 = true ∧
    getField ((encryptFileJs Algo.aes (List.replicate 32 0) (List.replicate 16 1)
      "p" "q" (fun p => if p = "p" then some [1, 2] else none)).1) "fileSize"
      = .num (([1, 2] : Bytes).length / 1024) :=
  ⟨(C10_sync_async Algo.aes (List.replicate 32 0) (List.replicate 16 1)
      (fun _ => []) "x" "y" 1 (fun _ => none)).2.2.2.1,
    (C10_sync_async Algo.aes (List.replicate 32 0) (List.replicate 16 1)
      (fun _ => []) "p" "q" 1
      (fun p => if p = "p" then some [1, 2] else none)).2.2.2.2.1
      ⟨([1, 2] : Bytes).length / 1024⟩
      (by rw [encryptFile_eq Algo.aes (List.replicate 32 0) (List.replicate 16 1)
        "p" "q" _ [1, 2] rfl (by decide)])⟩

end Zippy
